import Mathlib

/-!
The shell-word tokenizer, the cursor locator and the completion-case
classifier of compgen.

A shallow embedding of `tokenizer.go`, of `parseArgs`, `position` and `Prefix`
of `main.go`, of `findCase` of `terminator.go` and of `FlagNameGen` of
`compgen.go`, the last two over a model of the `flag` package of the standard
library.  The rune stream behind the
`io.RuneScanner` is a `List Char`; `ReadRune` takes the head of the list,
`UnreadRune` puts the rune just read back in front.  The byte buffer of
`lexstate` only ever receives whole runes, so it is a `List Char` too and
`Arg.Val` is the list of runes written to it.  Go's `int` positions are `Int`
(`initpos` takes the value `-1`).
-/

namespace Compgen

/-- The error values `Tokenize` can return: the reader is an in-memory rune
list, so `ErrShellParameterExpansion` is the only one. -/
inductive TokError where
  | ErrShellParameterExpansion
  deriving DecidableEq, Repr

/-- Arg is the result of parsing a full command line. -/
structure Arg where
  Val : List Char
  Offset : Int
  Length : Int
  deriving DecidableEq, Repr

def NewArg (val : List Char) (offset length : Int) : Arg :=
  { Val := val, Offset := offset, Length := length }

/-- Go's `unicode.IsSpace`: the Latin-1 white space runes, and beyond Latin-1
the `White_Space` range table. -/
def isSpace (r : Char) : Bool :=
  let n := r.toNat
  if n ≤ 0xFF then
    n == 0x09 || n == 0x0A || n == 0x0B || n == 0x0C || n == 0x0D || n == 0x20
      || n == 0x85 || n == 0xA0
  else
    n == 0x1680 || (0x2000 ≤ n && n ≤ 0x200A) || n == 0x2028 || n == 0x2029
      || n == 0x202F || n == 0x205F || n == 0x3000

structure lexstate where
  buf : List Char
  initpos : Int
  pos : Int
  InSingleQuote : Bool
  InDoubleQuote : Bool
  InSeparator : Bool
  InDoubleQuoteEscape : Bool
  InEscape : Bool
  InDollar : Bool
  deriving DecidableEq, Repr

/-- The zero value of every field, with an empty buffer. -/
def newstate : lexstate :=
  { buf := [], initpos := 0, pos := 0, InSingleQuote := false, InDoubleQuote := false,
    InSeparator := false, InDoubleQuoteEscape := false, InEscape := false, InDollar := false }

def lexstate.Move (l : lexstate) (size : Int) : lexstate :=
  { l with pos := l.pos + size }

def lexstate.Push (l : lexstate) (r : Char) : lexstate :=
  let l1 := if l.initpos < 0 then { l with initpos := l.pos } else l
  { l1 with buf := l1.buf ++ [r] }

/-- Pull returns the arg and the reset state. -/
def lexstate.Pull (l : lexstate) : Arg × lexstate :=
  let length := l.pos - l.initpos
  (NewArg l.buf l.initpos length, { l with buf := [], initpos := -1 })

/-- What one pass through the body of the `for` loop does after a rune was
read: return from `Tokenize`, or fall out of the `switch` with a new state and
argument list, `unread` telling whether `reader.UnreadRune()` was called. -/
inductive Outcome where
  | ret (args : List Arg) (err : Option TokError)
  | next (state : lexstate) (args : List Arg) (unread : Bool)
  deriving DecidableEq, Repr

/-- The `switch` of `Tokenize` for a rune `r` that was read without error (the
`err == io.EOF` case is in `TokenizeLoop`). -/
def iteration (r : Char) (state : lexstate) (args : List Arg) : Outcome :=
  if state.InDollar then
    if r = '(' ∨ r = '{' then
      .ret args (some .ErrShellParameterExpansion)
    else
      .next ({ state with InDollar := false }.Move (-1)) args true
  else if state.InSingleQuote then
    if r = '\'' then
      .next { state with InSingleQuote := false } args false
    else
      .next (state.Push r) args false
  else if state.InDoubleQuote then
    if state.InDoubleQuoteEscape then
      let state := { state with InDoubleQuoteEscape := false }
      if r = '$' ∨ r = '`' ∨ r = '"' ∨ r = '\\' then
        .next (state.Push r) args false
      else
        .next ((state.Push '\\').Push r) args false
    else if r = '\\' then
      .next { state with InDoubleQuoteEscape := true } args false
    else if r = '$' then
      .next ({ state with InDollar := true }.Push r) args false
    else if r = '`' then
      .ret args (some .ErrShellParameterExpansion)
    else if r = '"' then
      .next { state with InDoubleQuote := false } args false
    else
      .next (state.Push r) args false
  else if state.InEscape then
    .next ({ state with InEscape := false, InSeparator := false }.Push r) args false
  else if state.InSeparator then
    if isSpace r then
      .next state args false
    else
      .next ({ state with InSeparator := false, initpos := state.pos }.Move (-1)) args true
  else
    if r = '`' then
      .ret args (some .ErrShellParameterExpansion)
    else if r = '\'' then
      .next { state with InSingleQuote := true } args false
    else if r = '"' then
      .next { state with InDoubleQuote := true } args false
    else if r = '\\' then
      .next { state with InEscape := true } args false
    else if r = '$' then
      .next ({ state with InDollar := true }.Push r) args false
    else if isSpace r then
      let p := state.Pull
      .next { p.2 with InSeparator := true } (args ++ [p.1]) false
    else
      .next (state.Push r) args false

/-- The `for` loop of `Tokenize`, one unit of fuel per pass.  At the end of
the rune list `ReadRune` reports `io.EOF`; otherwise the `switch` runs, then
`state.Move(1)`.  `none` means the fuel ran out. -/
def TokenizeLoop : Nat → List Char → lexstate → List Arg → Option (List Arg × Option TokError)
  | 0, _, _, _ => none
  | _ + 1, [], state, args =>
    if state.initpos > 0 then
      some (args ++ [state.Pull.1], none)
    else
      some (args, none)
  | fuel + 1, r :: rest, state, args =>
    match iteration r state args with
    | .ret args err => some (args, err)
    | .next state args unread =>
      TokenizeLoop fuel (if unread then r :: rest else rest) (state.Move 1) args

/-- Tokenize on the runes of the text; the loop is given `2 * n + 1` passes
for `n` runes. -/
def Tokenize (reader : List Char) : Option (List Arg × Option TokError) :=
  TokenizeLoop (2 * reader.length + 1) reader newstate []

/-- A plain character: not white space and not one of `'`, `"`, `\`, `$`,
backtick. -/
def plain (c : Char) : Bool :=
  !isSpace c && c != '\'' && c != '"' && c != '\\' && c != '$' && c != '`'

/-! ## Definitions used to state and prove the properties -/

/-- An upper bound on the passes the loop still makes: two per unread rune,
one more while a flag that causes a rune to be re-read is set. -/
def budget (reader : List Char) (state : lexstate) : Nat :=
  2 * reader.length + (if state.InDollar then 1 else 0) + (if state.InSeparator then 1 else 0)

/-- The loop run with as many passes as it needs. -/
def run (reader : List Char) (st : lexstate) (args : List Arg) :
    Option (List Arg × Option TokError) :=
  TokenizeLoop (budget reader st + 1) reader st args

/-- Default mode with a word open at `ip`. -/
def inWord (buf : List Char) (ip p : Int) : lexstate :=
  ⟨buf, ip, p, false, false, false, false, false, false⟩

/-- Separator mode, as `Pull` followed by `InSeparator = true` leaves it. -/
def inSep (p : Int) : lexstate :=
  ⟨[], -1, p, false, false, true, false, false, false⟩

def inSingle (buf : List Char) (ip p : Int) : lexstate :=
  ⟨buf, ip, p, true, false, false, false, false, false⟩

def inDouble (buf : List Char) (ip p : Int) : lexstate :=
  ⟨buf, ip, p, false, true, false, false, false, false⟩

def inDoubleEsc (buf : List Char) (ip p : Int) : lexstate :=
  ⟨buf, ip, p, false, true, false, true, false, false⟩

def inEsc (buf : List Char) (ip p : Int) : lexstate :=
  ⟨buf, ip, p, false, false, false, false, true, false⟩

def inWordDollar (buf : List Char) (ip p : Int) : lexstate :=
  ⟨buf, ip, p, false, false, false, false, false, true⟩

def inDoubleDollar (buf : List Char) (ip p : Int) : lexstate :=
  ⟨buf, ip, p, false, true, false, false, false, true⟩

/-- The text `s₁ w₁ s₂ w₂ …` of a list of (separator, run) pairs. -/
def sepRunsText : List (List Char × List Char) → List Char
  | [] => []
  | (s, w) :: tl => s ++ w ++ sepRunsText tl

/-- The args of the runs of `sepRunsText tl`, in order, when `off` runes
precede that text: each run with the index of its first rune and its number of
runes. -/
def sepRunsArgs : Int → List (List Char × List Char) → List Arg
  | _, [] => []
  | off, (s, w) :: tl =>
    NewArg w (off + s.length) w.length :: sepRunsArgs (off + s.length + w.length) tl

/-- Between words or in an unquoted word: separator mode, or default mode
with a word open at a position that is not negative. -/
def idle (st : lexstate) : Prop :=
  (∃ buf ip p, 0 ≤ ip ∧ 0 ≤ p ∧ st = inWord buf ip p) ∨ (∃ p, 0 ≤ p ∧ st = inSep p)

/-- Tokenize returns the error `ErrShellParameterExpansion` on the text (with
whatever args were collected before). -/
def rejects (text : List Char) : Prop :=
  ∃ args, Tokenize text = some (args, some TokError.ErrShellParameterExpansion)

/-- Where the next word can start at the earliest: the start of the open
word, or the current position when no word is open. -/
def limit (ip p : Int) : Int := if ip < 0 then p else ip

/-- The invariant of the loop behind the order of the spans: positions are
not negative, a state without an open word is in separator mode, the args
collected so far have non-negative offsets and lengths, are pairwise in source
order without overlap, and end before `limit`. -/
def spansInv (st : lexstate) (args : List Arg) : Prop :=
  0 ≤ st.pos ∧ st.initpos ≤ st.pos ∧ (st.initpos < 0 → st.InSeparator = true) ∧
    args.Pairwise (fun a b => a.Offset + a.Length ≤ b.Offset) ∧
    ∀ a ∈ args, 0 ≤ a.Offset ∧ 0 ≤ a.Length ∧ a.Offset + a.Length ≤ limit st.initpos st.pos

/-! ### Decoding a span, written from the documented quote and escape rules -/

/-- The quoting context while a span is decoded. -/
inductive Mode where
  | default
  | single
  | double
  | doubleEscape
  | escape
  deriving DecidableEq, Repr

/-- The documented quote and escape stripping rules, as a function on the
characters of a span.  Outside quotes a single quote, a double quote and a
backslash are consumed and open single-quote mode, double-quote mode and the
escape of the next character; every other character, the dollar sign among
them, is literal.  Inside single quotes everything up to the closing quote is
literal.  Inside double quotes the closing quote and a backslash are consumed,
every other character is literal; after the backslash one of dollar, backtick,
double quote, backslash stands for itself and any other character keeps its
backslash.  After an unquoted backslash the next character is literal. -/
def decodeFrom : Mode → List Char → List Char
  | _, [] => []
  | .default, c :: cs =>
    if c = '\'' then decodeFrom .single cs
    else if c = '"' then decodeFrom .double cs
    else if c = '\\' then decodeFrom .escape cs
    else c :: decodeFrom .default cs
  | .single, c :: cs =>
    if c = '\'' then decodeFrom .default cs else c :: decodeFrom .single cs
  | .double, c :: cs =>
    if c = '"' then decodeFrom .default cs
    else if c = '\\' then decodeFrom .doubleEscape cs
    else c :: decodeFrom .double cs
  | .doubleEscape, c :: cs =>
    if c = '$' ∨ c = '`' ∨ c = '"' ∨ c = '\\' then c :: decodeFrom .double cs
    else '\\' :: c :: decodeFrom .double cs
  | .escape, c :: cs => c :: decodeFrom .default cs

/-- Decoding started from the default mode. -/
def decode (span : List Char) : List Char := decodeFrom .default span

/-- The characters of `T` at the indices `[w.Offset, w.Offset + w.Length)`. -/
def spanOf (T : List Char) (w : Arg) : List Char :=
  (T.drop w.Offset.toNat).take w.Length.toNat

/-- Span integrity of one Arg: the span lies inside the text and decodes to
the value. -/
def spanOK (T : List Char) (w : Arg) : Prop :=
  0 ≤ w.Offset ∧ 0 ≤ w.Length ∧ w.Offset + w.Length ≤ T.length ∧ decode (spanOf T w) = w.Val

/-- The decoding mode the flags of a state stand for (the dollar flag does
not change it). -/
def wordMode (st : lexstate) : Mode :=
  if st.InSingleQuote then .single
  else if st.InDoubleQuote then (if st.InDoubleQuoteEscape then .doubleEscape else .double)
  else if st.InEscape then .escape
  else .default

/-- The combinations of mode flags the loop reaches: at most one of single
quote, double quote, escape and separator, and the double-quote escape only
inside double quotes. -/
def canonical (st : lexstate) : Bool :=
  (st.InSingleQuote, st.InDoubleQuote, st.InSeparator, st.InDoubleQuoteEscape, st.InEscape) ∈
    [(false, false, false, false, false), (true, false, false, false, false),
     (false, true, false, false, false), (false, true, false, true, false),
     (false, false, false, false, true), (false, false, true, false, false)]

/-- The invariant of the loop behind span integrity, for the text `T` with
`reader` still to read: `pos` is the number of runes read, the args collected
so far have span integrity, in separator mode no word is open and the buffer
is empty, otherwise a word is open at `initpos` and the buffer is what decoding
the runes read since `initpos` has produced, in the mode of the flags. -/
def roundInv (T reader : List Char) (st : lexstate) (args : List Arg) : Prop :=
  ∃ pre, T = pre ++ reader ∧ st.pos = pre.length ∧ canonical st = true ∧
    (∀ w ∈ args, spanOK T w) ∧
    (st.InSeparator = true → st.initpos < 0 ∧ st.buf = []) ∧
    (st.InSeparator = false → 0 ≤ st.initpos ∧ st.initpos ≤ st.pos ∧
      ∀ s, decodeFrom .default (pre.drop st.initpos.toNat ++ s)
        = st.buf ++ decodeFrom (wordMode st) s)

/-! ### main.go: the completion line and the cursor

A Go `string` that is sliced by byte index is a `List Nat` of bytes (values
below 256); `strings.NewReader` turns it into the rune stream `runesOf`. -/

/-- The rune `utf8.RuneError`. -/
def RuneError : Char := Char.ofNat 0xFFFD

/-- The multi-byte part of Go's `utf8.DecodeRuneInString`: the first byte
`s0` announces `sz` bytes and accepts a second byte in `lo..hi`; `t` is the
string after `s0`.  Later bytes must lie in `0x80..0xBF`; a short or
ill-formed sequence is `RuneError` of width 1. -/
def decodeSeq (s0 sz lo hi : Nat) (t : List Nat) : Char × Nat :=
  if t.length + 1 < sz then (RuneError, 1)
  else
    match t with
    | [] => (RuneError, 1)
    | s1 :: t1 =>
      if s1 < lo ∨ hi < s1 then (RuneError, 1)
      else if sz ≤ 2 then (Char.ofNat (s0 % 32 * 64 + s1 % 64), 2)
      else
        match t1 with
        | [] => (RuneError, 1)
        | s2 :: t2 =>
          if s2 < 0x80 ∨ 0xBF < s2 then (RuneError, 1)
          else if sz ≤ 3 then (Char.ofNat (s0 % 16 * 4096 + s1 % 64 * 64 + s2 % 64), 3)
          else
            match t2 with
            | [] => (RuneError, 1)
            | s3 :: _ =>
              if s3 < 0x80 ∨ 0xBF < s3 then (RuneError, 1)
              else
                (Char.ofNat (s0 % 8 * 262144 + s1 % 64 * 4096 + s2 % 64 * 64 + s3 % 64), 4)

/-- Go's `utf8.DecodeRuneInString` on the bytes `s`: the rune and the number
of bytes it takes.  A first byte below `0x80` is the rune itself; `0xC2..0xDF`,
`0xE0..0xEF` and `0xF0..0xF4` start a sequence of 2, 3 and 4 bytes, with the
accept range of the second byte narrowed after `0xE0`, `0xED`, `0xF0` and
`0xF4`; any other first byte is `RuneError` of width 1. -/
def decodeRune (s : List Nat) : Char × Nat :=
  match s with
  | [] => (RuneError, 0)
  | s0 :: t =>
    if s0 < 0x80 then (Char.ofNat s0, 1)
    else if s0 < 0xC2 ∨ 0xF4 < s0 then (RuneError, 1)
    else
      decodeSeq s0 (if s0 < 0xE0 then 2 else if s0 < 0xF0 then 3 else 4)
        (if s0 = 0xE0 then 0xA0 else if s0 = 0xF0 then 0x90 else 0x80)
        (if s0 = 0xED then 0x9F else if s0 = 0xF4 then 0x8F else 0xBF) t

/-- The runes `strings.Reader.ReadRune` returns until `io.EOF`, one unit of
fuel per rune: a byte below `utf8.RuneSelf` is its own rune, otherwise
`decodeRune` says which rune and how many bytes. -/
def readRunes : Nat → List Nat → List Char
  | 0, _ => []
  | _ + 1, [] => []
  | fuel + 1, c :: t =>
    if c < 0x80 then Char.ofNat c :: readRunes fuel t
    else
      let d := decodeRune (c :: t)
      d.1 :: readRunes fuel ((c :: t).drop d.2)

/-- The rune stream of `strings.NewReader(s)`; every rune takes at least one
byte, so one unit of fuel per byte is enough. -/
def runesOf (s : List Nat) : List Char := readRunes s.length s

/-- The `for i, a := range args` loop of `position`, at index `i` with the
value `current` so far. -/
def positionLoop (pos : Int) : List Arg → Int → Int → Int
  | [], _, current => current
  | a :: rest, i, current =>
    positionLoop pos rest (i + 1)
      (if a.Offset + a.Length ≥ pos ∧ a.Offset < pos then i else current)

/-- read the current position from args -/
def position (args : List Arg) (pos : Int) : Int :=
  positionLoop pos args 0 (-1)

/-- What a call of `parseArgs` does: a run-time panic, or the return of the
results `(args, inword, err)`. -/
inductive ArgsOutcome where
  | panic
  | ret (args : List (List Char)) (inword : Bool) (err : Option TokError)
  deriving DecidableEq, Repr

/-- parseArgs: the slice expression `comp_line[0:pos]` panics when `pos` is
negative or beyond the length of the line; on a Tokenize error the named
results are returned as they are (`nil`, `false`, the error).  `none` stands
for a Tokenize that ran out of fuel. -/
def parseArgs (comp_line : List Nat) (pos : Int) : Option ArgsOutcome :=
  if pos < 0 ∨ pos > comp_line.length then
    some .panic
  else
    match Tokenize (runesOf (comp_line.take pos.toNat)) with
    | none => none
    | some (_, some err) => some (.ret [] false (some err))
    | some (aargs, none) =>
      let current := position aargs pos
      some (.ret (aargs.map Arg.Val) (decide (current > 0)) none)

/-- Prefix compute the completion prefix and position -/
def Prefix (args : List (List Char)) (inword : Bool) : Int × List Char :=
  let pos : Int := args.length
  if inword then
    let pos := pos - 1
    if pos ≥ 0 then (pos, args.getD pos.toNat []) else (pos, [])
  else
    (pos, [])

/-- The bytes of a Go string literal: the UTF-8 encoding of its runes. -/
def bytesOf (s : String) : List Nat :=
  s.toList.flatMap fun c => (String.utf8EncodeChar c).map UInt8.toNat
/-- The invariant of the loop behind the first Arg: as long as no Arg was
pulled the word opened at offset 0 is still open, and the first Arg pulled
ends before the current position. -/
def firstInv (st : lexstate) (args : List Arg) : Prop :=
  (args = [] → st.initpos = 0 ∧ st.InSeparator = false) ∧
    ∀ w, args.head? = some w → w.Offset + w.Length < st.pos

/-- The test of `position` on one Arg. -/
def cursorIn (pos : Int) (a : Arg) : Prop :=
  a.Offset + a.Length ≥ pos ∧ a.Offset < pos
/-! ### terminator.go: the completion case, and the `flag` package it drives

Words are rune lists.  The `flag` package looks at the bytes `-` and `=` of a
word only and compares names for equality, which is the same on the runes. -/

/-- A flag declared in a FlagSet: its name, whether its Value is a boolean
flag (`IsBoolFlag()`), and on which strings `Value.Set` returns no error. -/
structure Flag where
  Name : List Char
  IsBoolFlag : Bool
  Set : List Char → Bool

/-- The strings `strconv.ParseBool` accepts. -/
def parseBoolOK (s : List Char) : Bool :=
  s ∈ ["1".toList, "t".toList, "T".toList, "TRUE".toList, "true".toList, "True".toList,
    "0".toList, "f".toList, "F".toList, "FALSE".toList, "false".toList, "False".toList]

/-- A flag declared with `fs.Bool(name, ...)`. -/
def boolFlag (name : List Char) : Flag :=
  { Name := name, IsBoolFlag := true, Set := parseBoolOK }

/-- A flag declared with `fs.String(name, ...)`: every value is accepted. -/
def stringFlag (name : List Char) : Flag :=
  { Name := name, IsBoolFlag := false, Set := fun _ => true }

/-- The errors of `FlagSet.Parse`: `ErrHelp` and the `failf` messages. -/
inductive FlagError where
  | badSyntax
  | help
  | notDefined
  | invalidBool
  | needsArgument
  | invalidValue
  deriving DecidableEq, Repr

/-- The part of a `flag.FlagSet` parsing reads and writes: the declared
flags, the names of the flags that were set, and the arguments left. -/
structure FlagSet where
  formal : List Flag
  actual : List (List Char)
  args : List (List Char)

/-- The map lookup `f.formal[name]`. -/
def FlagSet.lookup (f : FlagSet) (name : List Char) : Option Flag :=
  f.formal.find? fun fl => fl.Name = name

/-- The text before and after the first `=` of `s`, if there is one. -/
def cutEq : List Char → Option (List Char × List Char)
  | [] => none
  | c :: cs =>
    if c = '=' then some ([], cs)
    else
      match cutEq cs with
      | none => none
      | some (a, b) => some (c :: a, b)

/-- The end of `parseOne` for a flag that was found, with the value given
after `=` if any: a boolean flag is set to that value or to `true`, another
flag takes the next argument as its value when none was given. -/
def parseFound (f : FlagSet) (name : List Char) (flag : Flag) (value : Option (List Char)) :
    FlagSet × Bool × Option FlagError :=
  if flag.IsBoolFlag then
    match value with
    | some v =>
      if flag.Set v then ({ f with actual := name :: f.actual }, true, none)
      else (f, false, some .invalidBool)
    | none =>
      if flag.Set "true".toList then ({ f with actual := name :: f.actual }, true, none)
      else (f, false, some .invalidBool)
  else
    match value, f.args with
    | none, [] => (f, false, some .needsArgument)
    | none, v :: rest =>
      if flag.Set v then ({ f with args := rest, actual := name :: f.actual }, true, none)
      else ({ f with args := rest }, false, some .invalidValue)
    | some v, _ =>
      if flag.Set v then ({ f with actual := name :: f.actual }, true, none)
      else (f, false, some .invalidValue)

/-- The method `parseOne` of the `flag` package: the new state, whether a
flag was seen, and the error.  A first argument shorter than 2 or not starting
with `-` stops the parse; `--` is consumed and stops it; one or two dashes are
stripped, and a name that is empty or starts with `-` or `=` is bad syntax;
the name is cut at the first `=` after its first character. -/
def parseOne (f : FlagSet) : FlagSet × Bool × Option FlagError :=
  match f.args with
  | [] => (f, false, none)
  | s :: rest =>
    match s with
    | [] => (f, false, none)
    | [_] => (f, false, none)
    | c0 :: c1 :: s2 =>
      if c0 ≠ '-' then (f, false, none)
      else if c1 = '-' ∧ s2 = [] then ({ f with args := rest }, false, none)
      else
        match (if c1 = '-' then s2 else c1 :: s2) with
        | [] => (f, false, some .badSyntax)
        | n0 :: ns =>
          if n0 = '-' ∨ n0 = '=' then (f, false, some .badSyntax)
          else
            let f := { f with args := rest }
            let cut := cutEq ns
            let name := match cut with
              | some (a, _) => n0 :: a
              | none => n0 :: ns
            let value := cut.map Prod.snd
            match f.lookup name with
            | none =>
              if name = "help".toList ∨ name = "h".toList then (f, false, some .help)
              else (f, false, some .notDefined)
            | some flag => parseFound f name flag value

/-- The loop of `FlagSet.Parse` under `flag.ContinueOnError`, one unit of
fuel per call of `parseOne`: it goes on while a flag is seen, returns `nil`
when none is seen without error, and returns the error otherwise. -/
def ParseLoop : Nat → FlagSet → Option (FlagSet × Option FlagError)
  | 0, _ => none
  | fuel + 1, f =>
    match parseOne f with
    | (f, true, _) => ParseLoop fuel f
    | (f, false, none) => some (f, none)
    | (f, false, some e) => some (f, some e)

/-- The method `Parse` of a FlagSet whose error handling is
`flag.ContinueOnError`: the one `Terminator.Compgen` initialises the flag set
with before it calls `findCase`, and the one of the flag set of the test.
Every pass but the last consumes an argument, so one pass more than there are
arguments is enough. -/
def FlagSet.Parse (f : FlagSet) (arguments : List (List Char)) :
    Option (FlagSet × Option FlagError) :=
  ParseLoop (arguments.length + 1) { f with args := arguments }

/-- The constants `CompErr`, `CompFlagKey`, `CompFlagVal`, `CompArgs`. -/
inductive CompCase where
  | CompErr
  | CompFlagKey
  | CompFlagVal
  | CompArgs
  deriving DecidableEq, Repr

/-- The call `strings.HasPrefix(s, "-")`. -/
def hasDashPrefix (s : List Char) : Bool := s.head? = some '-'

/-- findCase; `none` stands for a Parse that ran out of fuel. -/
def findCase (fs : FlagSet) (args : List (List Char)) (inword : Bool) : Option CompCase :=
  let la := args.length
  if la = 0 then some .CompArgs
  else
    let endIsKey := hasDashPrefix (args.getD (la - 1) [])
    match fs.Parse (args.drop 1) with
    | none => none
    | some (_, some _) =>
      if endIsKey then
        if inword then some .CompFlagKey else some .CompFlagVal
      else some .CompErr
    | some (fs, none) =>
      let remaining := fs.args
      let lr := remaining.length
      if lr = 0 then
        if inword then
          if endIsKey then some .CompFlagKey else some .CompFlagVal
        else some .CompArgs
      else if lr = 1 then
        if endIsKey then some .CompFlagKey else some .CompArgs
      else if lr > 0 then some .CompArgs
      else some .CompErr

/-- The flag set of `CheckCase` in the test: a string flag `name` and a
boolean flag `yes`. -/
def testFlagSet : FlagSet :=
  { formal := [stringFlag "name".toList, boolFlag "yes".toList], actual := [], args := [] }

/-! ### compgen.go: FlagNameGen -/

/-- The call `strings.TrimLeft(s, "-")`. -/
def TrimLeftDash (s : List Char) : List Char :=
  s.dropWhile fun c => c = '-'

/-- The call `strings.TrimSuffix(s, suffix)`. -/
def TrimSuffix (s suffix : List Char) : List Char :=
  if suffix.isSuffixOf s then s.take (s.length - suffix.length) else s

/-- The order of `strings.Compare` on names, `a <= b`: lexicographic by
code point, which is the byte order of the UTF-8 encodings. -/
def nameLE : List Char → List Char → Bool
  | [], _ => true
  | _ :: _, [] => false
  | a :: as, b :: bs => decide (a < b) || (decide (a = b) && nameLE as bs)

/-- The function `sortFlags` of the `flag` package: the declared flags in
lexicographical order of their names. -/
def sortFlags (formal : List Flag) : List Flag :=
  formal.insertionSort fun a b => nameLE a.Name b.Name = true

/-- FlagNameGen: `fs.Visit` collects the names of the flags that were set
(the keys of `actual`), `fs.VisitAll` goes through the declared flags in
sorted order and appends `dash + f.Name` for each one that is not set and has
the prefix `name`. -/
def FlagNameGen (fs : FlagSet) (pre : List Char) : List (List Char) :=
  let name := TrimLeftDash pre
  let dash := TrimSuffix pre name
  let dash := if dash = [] then ['-'] else dash
  let actual := fs.actual
  (sortFlags fs.formal).foldl
    (fun predict f =>
      if f.Name ∉ actual ∧ name.isPrefixOf f.Name then predict ++ [dash ++ f.Name]
      else predict)
    []
/-- A text without unsupported expansion syntax: no backtick and no
occurrence of the two-character sequences `$(` and `$\x7b`. -/
def expFree (text : List Char) : Prop :=
  '`' ∉ text ∧ ¬ ['$', '('] <:+: text ∧ ¬ ['$', '{'] <:+: text

/-- The invariant of the loop on such a text: what is left to read is free
of expansion syntax, and after a dollar sign the next character is neither
`(` nor an opening brace. -/
def noExpInv (reader : List Char) (st : lexstate) : Prop :=
  expFree reader ∧
    (st.InDollar = true → ∀ c, reader.head? = some c → c ≠ '(' ∧ c ≠ '{')

/-! ## Fuel: the loop always has enough of it -/


theorem Move_InDollar (l : lexstate) (k : Int) : (l.Move k).InDollar = l.InDollar := rfl

theorem Move_InSeparator (l : lexstate) (k : Int) : (l.Move k).InSeparator = l.InSeparator := rfl

theorem Push_InDollar (l : lexstate) (r : Char) : (l.Push r).InDollar = l.InDollar := by
  unfold lexstate.Push; split <;> rfl

theorem Push_InSeparator (l : lexstate) (r : Char) :
    (l.Push r).InSeparator = l.InSeparator := by
  unfold lexstate.Push; split <;> rfl


theorem iteration_budget (r : Char) (rest : List Char) (st st' : lexstate)
    (args args' : List Arg) (u : Bool) (h : iteration r st args = .next st' args' u) :
    budget (if u then r :: rest else rest) (st'.Move 1) + 1 ≤ budget (r :: rest) st := by
  rcases st with ⟨buf, ip, p, sq, dq, sep, dqe, esc, dol⟩
  cases dol <;> cases sq <;> cases dq <;> cases dqe <;> cases esc <;> cases sep <;>
    simp only [iteration, Bool.false_eq_true, if_false, if_true] at h <;>
    (repeat' split at h) <;>
    cases h <;>
    simp only [budget, Move_InDollar, Move_InSeparator, Push_InDollar, Push_InSeparator,
         lexstate.Pull, List.length_cons, Bool.false_eq_true, if_false, if_true] <;>
    omega

theorem TokenizeLoop_succ (fuel : Nat) (reader : List Char) (st : lexstate) (args : List Arg)
    (h : budget reader st < fuel) :
    TokenizeLoop (fuel + 1) reader st args = TokenizeLoop fuel reader st args := by
  induction fuel generalizing reader st args with
  | zero => omega
  | succ n ih =>
    cases reader with
    | nil => rfl
    | cons r rest =>
      rw [TokenizeLoop, TokenizeLoop]
      cases hit : iteration r st args with
      | ret a e => rfl
      | next st' a' u =>
        have hb := iteration_budget r rest st st' args a' u hit
        exact ih _ _ _ (by omega)

theorem TokenizeLoop_stable (f g : Nat) (reader : List Char) (st : lexstate) (args : List Arg)
    (hf : budget reader st < f) (hg : budget reader st < g) :
    TokenizeLoop f reader st args = TokenizeLoop g reader st args := by
  have key : ∀ k, TokenizeLoop (budget reader st + 1 + k) reader st args
      = TokenizeLoop (budget reader st + 1) reader st args := by
    intro k
    induction k with
    | zero => rfl
    | succ k ih =>
      have hlt : budget reader st < budget reader st + 1 + k := by omega
      rw [show budget reader st + 1 + (k + 1) = (budget reader st + 1 + k) + 1 from rfl,
        TokenizeLoop_succ _ _ _ _ hlt, ih]
  obtain ⟨a, rfl⟩ : ∃ a, f = budget reader st + 1 + a := ⟨f - (budget reader st + 1), by omega⟩
  obtain ⟨b, rfl⟩ : ∃ b, g = budget reader st + 1 + b := ⟨g - (budget reader st + 1), by omega⟩
  rw [key, key]

theorem run_nil (st : lexstate) (args : List Arg) :
    run [] st args
      = if st.initpos > 0 then some (args ++ [st.Pull.1], none) else some (args, none) := by
  rw [run, TokenizeLoop]

theorem run_cons (r : Char) (rest : List Char) (st : lexstate) (args : List Arg) :
    run (r :: rest) st args
      = match iteration r st args with
        | .ret a e => some (a, e)
        | .next st' a' u => run (if u then r :: rest else rest) (st'.Move 1) a' := by
  rw [run, TokenizeLoop]
  cases hit : iteration r st args with
  | ret a e => rfl
  | next st' a' u =>
    have hb := iteration_budget r rest st st' args a' u hit
    exact TokenizeLoop_stable _ _ _ _ _ (by omega) (by omega)

theorem Tokenize_eq_run (reader : List Char) : Tokenize reader = run reader newstate [] := by
  unfold Tokenize run
  exact TokenizeLoop_stable _ _ _ _ _ (by simp [budget, newstate]) (by omega)

/-! ## The modes of the state machine, one pass at a time -/

theorem newstate_eq : newstate = inWord [] 0 0 := rfl

theorem plain_spec (c : Char) :
    plain c = true ↔
      isSpace c = false ∧ c ≠ '\'' ∧ c ≠ '"' ∧ c ≠ '\\' ∧ c ≠ '$' ∧ c ≠ '`' := by
  simp [plain, and_assoc]

theorem run_inWord_plain (c : Char) (rest : List Char) (buf : List Char) (ip p : Int)
    (args : List Arg) (hc : plain c = true) (hip : 0 ≤ ip) :
    run (c :: rest) (inWord buf ip p) args = run rest (inWord (buf ++ [c]) ip (p + 1)) args := by
  obtain ⟨h1, h2, h3, h4, h5, h6⟩ := (plain_spec c).1 hc
  rw [run_cons]
  simp [iteration, inWord, lexstate.Push, lexstate.Move, h1, h2, h3, h4, h5, h6, not_lt.mpr hip]

theorem run_inWord_space (c : Char) (rest : List Char) (buf : List Char) (ip p : Int)
    (args : List Arg) (hc : isSpace c = true) :
    run (c :: rest) (inWord buf ip p) args
      = run rest (inSep (p + 1)) (args ++ [NewArg buf ip (p - ip)]) := by
  have h2 : c ≠ '\'' := by rintro rfl; revert hc; decide
  have h3 : c ≠ '"' := by rintro rfl; revert hc; decide
  have h4 : c ≠ '\\' := by rintro rfl; revert hc; decide
  have h5 : c ≠ '$' := by rintro rfl; revert hc; decide
  have h6 : c ≠ '`' := by rintro rfl; revert hc; decide
  rw [run_cons]
  simp [iteration, inWord, inSep, lexstate.Pull, lexstate.Move, hc, h2, h3, h4, h5, h6]

theorem run_inSep_space (c : Char) (rest : List Char) (p : Int) (args : List Arg)
    (hc : isSpace c = true) :
    run (c :: rest) (inSep p) args = run rest (inSep (p + 1)) args := by
  rw [run_cons]
  simp [iteration, inSep, lexstate.Move, hc]

theorem run_inSep_word (c : Char) (rest : List Char) (p : Int) (args : List Arg)
    (hc : isSpace c = false) :
    run (c :: rest) (inSep p) args = run (c :: rest) (inWord [] p p) args := by
  rw [run_cons]
  simp [iteration, inSep, inWord, lexstate.Move, hc]

theorem run_nil_inWord (buf : List Char) (ip p : Int) (args : List Arg) :
    run [] (inWord buf ip p) args
      = if ip > 0 then some (args ++ [NewArg buf ip (p - ip)], none) else some (args, none) := by
  rw [run_nil]; rfl

theorem run_nil_inSep (p : Int) (args : List Arg) :
    run [] (inSep p) args = some (args, none) := by
  rw [run_nil]; rfl

theorem run_inWord_plains (w rest buf : List Char) (ip p : Int) (args : List Arg)
    (hw : ∀ c ∈ w, plain c = true) (hip : 0 ≤ ip) :
    run (w ++ rest) (inWord buf ip p) args
      = run rest (inWord (buf ++ w) ip (p + w.length)) args := by
  induction w generalizing buf p with
  | nil => simp
  | cons c w ih =>
    rw [List.cons_append, run_inWord_plain c _ buf ip p args (hw c (List.mem_cons_self _ _)) hip,
      ih _ _ (fun d hd => hw d (List.mem_cons_of_mem _ hd))]
    simp only [List.append_assoc, List.singleton_append, List.length_cons, Nat.cast_succ]
    congr 2
    omega

theorem run_inSep_spaces (s rest : List Char) (p : Int) (args : List Arg)
    (hs : ∀ c ∈ s, isSpace c = true) :
    run (s ++ rest) (inSep p) args = run rest (inSep (p + s.length)) args := by
  induction s generalizing p with
  | nil => simp
  | cons c s ih =>
    rw [List.cons_append, run_inSep_space c _ p args (hs c (List.mem_cons_self _ _)),
      ih _ (fun d hd => hs d (List.mem_cons_of_mem _ hd))]
    simp only [List.length_cons, Nat.cast_succ]
    congr 2
    omega

/-- A word is open, a non-empty run of white space follows: the word is
emitted and the separator consumed. -/
theorem run_inWord_spaces (s rest buf : List Char) (ip p : Int) (args : List Arg)
    (hs : ∀ c ∈ s, isSpace c = true) (hne : s ≠ []) :
    run (s ++ rest) (inWord buf ip p) args
      = run rest (inSep (p + s.length)) (args ++ [NewArg buf ip (p - ip)]) := by
  cases s with
  | nil => exact absurd rfl hne
  | cons c s =>
    rw [List.cons_append, run_inWord_space c _ buf ip p args (hs c (List.mem_cons_self _ _)),
      run_inSep_spaces s rest _ _ (fun d hd => hs d (List.mem_cons_of_mem _ hd))]
    simp only [List.length_cons, Nat.cast_succ]
    congr 2
    omega

/-- Separator mode, a non-empty run of plain characters follows: a word is
opened at the current position and filled with the run. -/
theorem run_inSep_plains (w rest : List Char) (p : Int) (args : List Arg)
    (hw : ∀ c ∈ w, plain c = true) (hne : w ≠ []) (hp : 0 ≤ p) :
    run (w ++ rest) (inSep p) args = run rest (inWord w p (p + w.length)) args := by
  cases w with
  | nil => exact absurd rfl hne
  | cons c w =>
    have hc := ((plain_spec c).1 (hw c (List.mem_cons_self _ _))).1
    rw [List.cons_append, run_inSep_word c _ p args hc, ← List.cons_append,
      run_inWord_plains (c :: w) rest [] p p args hw hp]
    simp

/-! ## Words separated by white space -/

theorem run_sepRuns (tl : List (List Char × List Char)) (t buf : List Char) (ip p : Int)
    (args : List Arg) (hip : 0 ≤ ip) (hp : ip ≤ p) (hopen : tl ≠ [] ∨ 0 < ip)
    (htl : ∀ sw ∈ tl, sw.1 ≠ [] ∧ (∀ c ∈ sw.1, isSpace c = true) ∧ sw.2 ≠ [] ∧
      ∀ c ∈ sw.2, plain c = true)
    (ht : ∀ c ∈ t, isSpace c = true) :
    run (sepRunsText tl ++ t) (inWord buf ip p) args
      = some (args ++ NewArg buf ip (p - ip) :: sepRunsArgs p tl, none) := by
  induction tl generalizing buf ip p args with
  | nil =>
    have h0 : 0 < ip := by
      rcases hopen with h | h
      · exact absurd rfl h
      · exact h
    by_cases hte : t = []
    · subst hte
      simp [sepRunsText, sepRunsArgs, run_nil_inWord, h0]
    · have := run_inWord_spaces t [] buf ip p args ht hte
      rw [List.append_nil] at this
      simp [sepRunsText, sepRunsArgs, this, run_nil_inSep]
  | cons sw tl ih =>
    obtain ⟨s, w⟩ := sw
    obtain ⟨hs1, hs2, hw1, hw2⟩ := htl (s, w) (List.mem_cons_self _ _)
    have hlen : 0 < s.length := List.length_pos.mpr hs1
    have hp0 : (0 : Int) ≤ p + s.length := by omega
    simp only [sepRunsText, List.append_assoc]
    rw [run_inWord_spaces s _ buf ip p args hs2 hs1, run_inSep_plains w _ _ _ hw2 hw1 hp0,
      ih w (p + s.length) (p + s.length + w.length) _ hp0 (by omega) (Or.inr (by omega))
        (fun x hx => htl x (List.mem_cons_of_mem _ hx))]
    simp [sepRunsArgs]

/-- C1: a text of `n ≥ 2` non-empty runs of plain characters separated by
non-empty runs of white space, without leading white space and with any
trailing white space `t`, tokenizes without error to the `n` runs in order,
each with the index of its first rune as offset and its number of runes as
length. The text is `w0 ++ s₁ ++ w₁ ++ … ++ t` for the first run `w0` and the
(separator, run) pairs `tl`. -/
theorem Tokenize_plain_runs (w0 : List Char) (tl : List (List Char × List Char))
    (t : List Char) (hn : 2 ≤ 1 + tl.length)
    (hw0 : w0 ≠ [] ∧ ∀ c ∈ w0, plain c = true)
    (htl : ∀ sw ∈ tl, sw.1 ≠ [] ∧ (∀ c ∈ sw.1, isSpace c = true) ∧ sw.2 ≠ [] ∧
      ∀ c ∈ sw.2, plain c = true)
    (ht : ∀ c ∈ t, isSpace c = true) :
    Tokenize (w0 ++ sepRunsText tl ++ t)
      = some (NewArg w0 0 w0.length :: sepRunsArgs w0.length tl, none) := by
  have hne : tl ≠ [] := by
    intro h
    simp [h] at hn
  rw [Tokenize_eq_run, newstate_eq, List.append_assoc,
    run_inWord_plains w0 _ [] 0 0 [] hw0.2 le_rfl,
    run_sepRuns tl t _ 0 _ [] le_rfl (by omega) (Or.inl hne) htl ht]
  simp

theorem Tokenize_plain_runs_witness :
    Tokenize "ab  cd\tef ".toList
      = some ([NewArg "ab".toList 0 2, NewArg "cd".toList 4 2, NewArg "ef".toList 7 2], none) :=
  Tokenize_plain_runs "ab".toList [("  ".toList, "cd".toList), ("\t".toList, "ef".toList)]
    " ".toList (by decide) (by decide) (by decide) (by decide)

/-! ## End of input -/

/-- A text of plain characters only leaves the word it opens at offset 0 in
the buffer: at the end of the input `initpos` is `0`, the test `initpos > 0`
fails and no word is returned. -/
theorem Tokenize_plain_word (w : List Char) (hw : ∀ c ∈ w, plain c = true) :
    Tokenize w = some ([], none) := by
  have h := run_inWord_plains w [] [] 0 0 [] hw le_rfl
  rw [List.append_nil] at h
  rw [Tokenize_eq_run, newstate_eq, h, run_nil_inWord]
  simp

/-- C2 (the code at the failing input): the single word `ab` is not flushed
at the end of the input; `Tokenize` returns the empty list, not the one Arg
`ab` at offset 0 with length 2. -/
theorem Tokenize_ab_not_flushed :
    Tokenize "ab".toList = some ([], none) ∧
      Tokenize "ab".toList ≠ some ([NewArg "ab".toList 0 2], none) := by
  decide

/-- C6 (the code at the failing input): white space at the start of the text
is met in default mode with `initpos = 0`, so `Pull` emits an Arg with an empty
`Val` and `Length` 0 before the first word. -/
theorem Tokenize_leading_space_empty_arg :
    Tokenize " ab cd".toList
      = some ([NewArg [] 0 0, NewArg "ab".toList 1 2, NewArg "cd".toList 4 2], none) := by
  decide

/-! ## Quotes, escapes and the dollar sign, one pass at a time -/

theorem run_inWord_backtick (rest buf : List Char) (ip p : Int) (args : List Arg) :
    run ('`' :: rest) (inWord buf ip p) args
      = some (args, some TokError.ErrShellParameterExpansion) := by
  rw [run_cons]
  simp [iteration, inWord]

theorem run_inWord_squote (rest buf : List Char) (ip p : Int) (args : List Arg) :
    run ('\'' :: rest) (inWord buf ip p) args = run rest (inSingle buf ip (p + 1)) args := by
  rw [run_cons]
  simp [iteration, inWord, inSingle, lexstate.Move]

theorem run_inWord_dquote (rest buf : List Char) (ip p : Int) (args : List Arg) :
    run ('"' :: rest) (inWord buf ip p) args = run rest (inDouble buf ip (p + 1)) args := by
  rw [run_cons]
  simp [iteration, inWord, inDouble, lexstate.Move]

theorem run_inWord_backslash (rest buf : List Char) (ip p : Int) (args : List Arg) :
    run ('\\' :: rest) (inWord buf ip p) args = run rest (inEsc buf ip (p + 1)) args := by
  rw [run_cons]
  simp [iteration, inWord, inEsc, lexstate.Move]

theorem run_inWord_dollar (rest buf : List Char) (ip p : Int) (args : List Arg)
    (hip : 0 ≤ ip) :
    run ('$' :: rest) (inWord buf ip p) args
      = run rest (inWordDollar (buf ++ ['$']) ip (p + 1)) args := by
  rw [run_cons]
  simp [iteration, inWord, inWordDollar, lexstate.Move, lexstate.Push, not_lt.mpr hip]

theorem run_inWordDollar_subst (c : Char) (rest buf : List Char) (ip p : Int)
    (args : List Arg) (hc : c = '(' ∨ c = '{') :
    run (c :: rest) (inWordDollar buf ip p) args
      = some (args, some TokError.ErrShellParameterExpansion) := by
  rw [run_cons]
  simp [iteration, inWordDollar, hc]

theorem run_inWordDollar_other (c : Char) (rest buf : List Char) (ip p : Int)
    (args : List Arg) (h1 : c ≠ '(') (h2 : c ≠ '{') :
    run (c :: rest) (inWordDollar buf ip p) args = run (c :: rest) (inWord buf ip p) args := by
  rw [run_cons]
  simp [iteration, inWordDollar, inWord, lexstate.Move, h1, h2]

theorem run_inEsc (c : Char) (rest buf : List Char) (ip p : Int) (args : List Arg)
    (hip : 0 ≤ ip) :
    run (c :: rest) (inEsc buf ip p) args = run rest (inWord (buf ++ [c]) ip (p + 1)) args := by
  rw [run_cons]
  simp [iteration, inEsc, inWord, lexstate.Move, lexstate.Push, not_lt.mpr hip]

theorem run_inSingle_char (c : Char) (rest buf : List Char) (ip p : Int) (args : List Arg)
    (hc : c ≠ '\'') (hip : 0 ≤ ip) :
    run (c :: rest) (inSingle buf ip p) args
      = run rest (inSingle (buf ++ [c]) ip (p + 1)) args := by
  rw [run_cons]
  simp [iteration, inSingle, lexstate.Move, lexstate.Push, not_lt.mpr hip, hc]

theorem run_inSingle_close (rest buf : List Char) (ip p : Int) (args : List Arg) :
    run ('\'' :: rest) (inSingle buf ip p) args = run rest (inWord buf ip (p + 1)) args := by
  rw [run_cons]
  simp [iteration, inSingle, inWord, lexstate.Move]

theorem run_inDouble_char (c : Char) (rest buf : List Char) (ip p : Int) (args : List Arg)
    (h1 : c ≠ '\\') (h2 : c ≠ '$') (h3 : c ≠ '`') (h4 : c ≠ '"') (hip : 0 ≤ ip) :
    run (c :: rest) (inDouble buf ip p) args
      = run rest (inDouble (buf ++ [c]) ip (p + 1)) args := by
  rw [run_cons]
  simp [iteration, inDouble, lexstate.Move, lexstate.Push, not_lt.mpr hip, h1, h2, h3, h4]

theorem run_inDouble_backslash (rest buf : List Char) (ip p : Int) (args : List Arg) :
    run ('\\' :: rest) (inDouble buf ip p) args
      = run rest (inDoubleEsc buf ip (p + 1)) args := by
  rw [run_cons]
  simp [iteration, inDouble, inDoubleEsc, lexstate.Move]

theorem run_inDouble_dollar (rest buf : List Char) (ip p : Int) (args : List Arg)
    (hip : 0 ≤ ip) :
    run ('$' :: rest) (inDouble buf ip p) args
      = run rest (inDoubleDollar (buf ++ ['$']) ip (p + 1)) args := by
  rw [run_cons]
  simp [iteration, inDouble, inDoubleDollar, lexstate.Move, lexstate.Push, not_lt.mpr hip]

theorem run_inDouble_backtick (rest buf : List Char) (ip p : Int) (args : List Arg) :
    run ('`' :: rest) (inDouble buf ip p) args
      = some (args, some TokError.ErrShellParameterExpansion) := by
  rw [run_cons]
  simp [iteration, inDouble]

theorem run_inDouble_close (rest buf : List Char) (ip p : Int) (args : List Arg) :
    run ('"' :: rest) (inDouble buf ip p) args = run rest (inWord buf ip (p + 1)) args := by
  rw [run_cons]
  simp [iteration, inDouble, inWord, lexstate.Move]

theorem run_inDoubleDollar_subst (c : Char) (rest buf : List Char) (ip p : Int)
    (args : List Arg) (hc : c = '(' ∨ c = '{') :
    run (c :: rest) (inDoubleDollar buf ip p) args
      = some (args, some TokError.ErrShellParameterExpansion) := by
  rw [run_cons]
  simp [iteration, inDoubleDollar, hc]

theorem run_inDoubleDollar_other (c : Char) (rest buf : List Char) (ip p : Int)
    (args : List Arg) (h1 : c ≠ '(') (h2 : c ≠ '{') :
    run (c :: rest) (inDoubleDollar buf ip p) args
      = run (c :: rest) (inDouble buf ip p) args := by
  rw [run_cons]
  simp [iteration, inDoubleDollar, inDouble, lexstate.Move, h1, h2]

theorem run_inDoubleEsc_special (c : Char) (rest buf : List Char) (ip p : Int)
    (args : List Arg) (hc : c = '$' ∨ c = '`' ∨ c = '"' ∨ c = '\\') (hip : 0 ≤ ip) :
    run (c :: rest) (inDoubleEsc buf ip p) args
      = run rest (inDouble (buf ++ [c]) ip (p + 1)) args := by
  rw [run_cons]
  simp [iteration, inDoubleEsc, inDouble, lexstate.Move, lexstate.Push, not_lt.mpr hip, hc]

theorem run_inDoubleEsc_other (c : Char) (rest buf : List Char) (ip p : Int)
    (args : List Arg) (hc : ¬ (c = '$' ∨ c = '`' ∨ c = '"' ∨ c = '\\')) (hip : 0 ≤ ip) :
    run (c :: rest) (inDoubleEsc buf ip p) args
      = run rest (inDouble (buf ++ ['\\', c]) ip (p + 1)) args := by
  rw [run_cons]
  simp [iteration, inDoubleEsc, inDouble, lexstate.Move, lexstate.Push, not_lt.mpr hip, hc]

theorem run_nil_open (st : lexstate) (args : List Arg) (h : 0 < st.initpos) :
    run [] st args = some (args ++ [NewArg st.buf st.initpos (st.pos - st.initpos)], none) := by
  rw [run_nil, if_pos h]; rfl

theorem run_inSingle_chars (s rest buf : List Char) (ip p : Int) (args : List Arg)
    (hs : ∀ c ∈ s, c ≠ '\'') (hip : 0 ≤ ip) :
    run (s ++ rest) (inSingle buf ip p) args
      = run rest (inSingle (buf ++ s) ip (p + s.length)) args := by
  induction s generalizing buf p with
  | nil => simp
  | cons c s ih =>
    rw [List.cons_append, run_inSingle_char c _ buf ip p args (hs c (List.mem_cons_self _ _)) hip,
      ih _ _ (fun d hd => hs d (List.mem_cons_of_mem _ hd))]
    simp only [List.append_assoc, List.singleton_append, List.length_cons, Nat.cast_succ]
    congr 2
    omega

theorem run_inDouble_plains (w rest buf : List Char) (ip p : Int) (args : List Arg)
    (hw : ∀ c ∈ w, plain c = true) (hip : 0 ≤ ip) :
    run (w ++ rest) (inDouble buf ip p) args
      = run rest (inDouble (buf ++ w) ip (p + w.length)) args := by
  induction w generalizing buf p with
  | nil => simp
  | cons c w ih =>
    obtain ⟨-, -, h3, h4, h5, h6⟩ := (plain_spec c).1 (hw c (List.mem_cons_self _ _))
    rw [List.cons_append, run_inDouble_char c _ buf ip p args h4 h5 h6 h3 hip,
      ih _ _ (fun d hd => hw d (List.mem_cons_of_mem _ hd))]
    simp only [List.append_assoc, List.singleton_append, List.length_cons, Nat.cast_succ]
    congr 2
    omega

/-! ## A first word, then a quoted or escaped second word -/

theorem isSpace_space : isSpace ' ' = true := by decide

/-- The first word `c` and the space after it, from the initial state. -/
theorem run_first_word (c rest : List Char) (hc : ∀ x ∈ c, plain x = true) :
    run (c ++ ' ' :: rest) (inWord [] 0 0) []
      = run rest (inSep (c.length + 1)) [NewArg c 0 c.length] := by
  rw [run_inWord_plains c _ [] 0 0 [] hc le_rfl, run_inWord_space ' ' _ _ _ _ _ isSpace_space]
  simp

/-- Separator mode, a possibly empty run of plain characters and then a
character that is not white space: the word opens at the current position. -/
theorem run_inSep_open (w : List Char) (d : Char) (rest : List Char) (p : Int)
    (args : List Arg) (hw : ∀ x ∈ w, plain x = true) (hd : isSpace d = false) (hp : 0 ≤ p) :
    run (w ++ d :: rest) (inSep p) args = run (d :: rest) (inWord w p (p + w.length)) args := by
  by_cases hne : w = []
  · subst hne
    simp [run_inSep_word d rest p args hd]
  · exact run_inSep_plains w _ p args hw hne hp

/-- C7: single quotes preserve everything. For a non-empty word `c` of plain
characters and any `s` without a single quote, the text `c`, space, `'s'`
tokenizes without error to `c` at offset 0 and `s` at offset `|c| + 1` with
length `|s| + 2`. -/
theorem Tokenize_single_quoted (c s : List Char)
    (hc : c ≠ [] ∧ ∀ x ∈ c, plain x = true) (hs : ∀ x ∈ s, x ≠ '\'') :
    Tokenize (c ++ [' ', '\''] ++ s ++ ['\''])
      = some ([NewArg c 0 c.length, NewArg s (c.length + 1) (s.length + 2)], none) := by
  have hp : (0 : Int) ≤ c.length + 1 := by omega
  have hpos : (0 : Int) < c.length + 1 := by omega
  rw [Tokenize_eq_run, newstate_eq]
  simp only [List.append_assoc, List.cons_append, List.nil_append]
  rw [run_first_word c _ hc.2, run_inSep_word '\'' _ _ _ (by decide), run_inWord_squote,
    run_inSingle_chars s _ _ _ _ _ hs hp, run_inSingle_close, run_nil_inWord, if_pos hpos]
  simp only [List.nil_append, List.cons_append, NewArg]
  simp only [Option.some.injEq, Prod.mk.injEq, List.cons.injEq, Arg.mk.injEq, and_true,
    true_and]
  omega

theorem Tokenize_single_quoted_witness :
    Tokenize "ab 'a\\ \"$(`$\x7b'".toList
      = some ([NewArg "ab".toList 0 2, NewArg "a\\ \"$(`$\x7b".toList 3 11], none) :=
  Tokenize_single_quoted "ab".toList "a\\ \"$(`$\x7b".toList (by decide) (by decide)

/-- C8: backslash inside double quotes. For a non-empty word `c` and strings
`u`, `v` of plain characters and any character `x`, the text `c`, space,
`"u\xv"` tokenizes without error to `c` and to `u ++ e ++ v` at offset
`|c| + 1` with length `|u| + |v| + 4`, where `e` is `x` alone when `x` is one
of dollar, backtick, double quote, backslash, and backslash followed by `x`
otherwise. -/
theorem Tokenize_double_quoted_backslash (c u v : List Char) (x : Char)
    (hc : c ≠ [] ∧ ∀ y ∈ c, plain y = true) (hu : ∀ y ∈ u, plain y = true)
    (hv : ∀ y ∈ v, plain y = true) :
    Tokenize (c ++ [' ', '"'] ++ u ++ ['\\', x] ++ v ++ ['"'])
      = some ([NewArg c 0 c.length,
          NewArg (u ++ (if x = '$' ∨ x = '`' ∨ x = '"' ∨ x = '\\' then [x] else ['\\', x]) ++ v)
            (c.length + 1) (u.length + v.length + 4)], none) := by
  have hp : (0 : Int) ≤ c.length + 1 := by omega
  have hpos : (0 : Int) < c.length + 1 := by omega
  rw [Tokenize_eq_run, newstate_eq]
  simp only [List.append_assoc, List.cons_append, List.nil_append]
  rw [run_first_word c _ hc.2, run_inSep_word '"' _ _ _ (by decide), run_inWord_dquote,
    run_inDouble_plains u _ _ _ _ _ hu hp, run_inDouble_backslash]
  by_cases hx : x = '$' ∨ x = '`' ∨ x = '"' ∨ x = '\\'
  · rw [run_inDoubleEsc_special x _ _ _ _ _ hx hp, run_inDouble_plains v _ _ _ _ _ hv hp,
      run_inDouble_close, run_nil_inWord, if_pos hpos, if_pos hx]
    simp only [List.nil_append, List.cons_append, List.append_assoc, NewArg]
    simp only [Option.some.injEq, Prod.mk.injEq, List.cons.injEq, Arg.mk.injEq, and_true,
      true_and]
    omega
  · rw [run_inDoubleEsc_other x _ _ _ _ _ hx hp, run_inDouble_plains v _ _ _ _ _ hv hp,
      run_inDouble_close, run_nil_inWord, if_pos hpos, if_neg hx]
    simp only [List.nil_append, List.cons_append, List.append_assoc, NewArg]
    simp only [Option.some.injEq, Prod.mk.injEq, List.cons.injEq, Arg.mk.injEq, and_true,
      true_and]
    omega

theorem Tokenize_double_quoted_backslash_witness :
    Tokenize "ab \"cd\\nef\"".toList
      = some ([NewArg "ab".toList 0 2, NewArg "cd\\nef".toList 3 8], none) :=
  Tokenize_double_quoted_backslash "ab".toList "cd".toList "ef".toList 'n'
    (by decide) (by decide) (by decide)

/-- C9: an unquoted backslash escapes exactly one following character,
whatever it is. For a non-empty word `c` and strings `u`, `v` of plain
characters (possibly empty) and any character `x`, the text `c`, space,
`u\xv` tokenizes without error to `c` and to `u ++ x ++ v` at offset
`|c| + 1` with length `|u| + |v| + 2`. -/
theorem Tokenize_unquoted_backslash (c u v : List Char) (x : Char)
    (hc : c ≠ [] ∧ ∀ y ∈ c, plain y = true) (hu : ∀ y ∈ u, plain y = true)
    (hv : ∀ y ∈ v, plain y = true) :
    Tokenize (c ++ [' '] ++ u ++ ['\\', x] ++ v)
      = some ([NewArg c 0 c.length,
          NewArg (u ++ [x] ++ v) (c.length + 1) (u.length + v.length + 2)], none) := by
  have hp : (0 : Int) ≤ c.length + 1 := by omega
  have hpos : (0 : Int) < c.length + 1 := by omega
  have hv0 := run_inWord_plains v [] (u ++ [x]) (c.length + 1)
    (c.length + 1 + u.length + 1 + 1) [NewArg c 0 c.length] hv hp
  rw [List.append_nil] at hv0
  rw [Tokenize_eq_run, newstate_eq]
  simp only [List.append_assoc, List.cons_append, List.nil_append]
  rw [run_first_word c _ hc.2, run_inSep_open u '\\' _ _ _ hu (by decide) hp,
    run_inWord_backslash, run_inEsc _ _ _ _ _ _ hp, hv0, run_nil_inWord, if_pos hpos]
  simp only [List.nil_append, List.cons_append, List.append_assoc, NewArg]
  simp only [Option.some.injEq, Prod.mk.injEq, List.cons.injEq, Arg.mk.injEq, and_true,
    true_and]
  omega

theorem Tokenize_unquoted_backslash_witness :
    Tokenize "find a\\ b".toList
      = some ([NewArg "find".toList 0 4, NewArg "a b".toList 5 4], none) :=
  Tokenize_unquoted_backslash "find".toList "a".toList "b".toList ' '
    (by decide) (by decide) (by decide)

/-- C10: a dollar sign not followed by `(` or `{` is an ordinary word
character and does not consume the next character. For a non-empty word `c`
and strings `u`, `v` of plain characters where `v` does not begin with `(` or
`{`, the text `c`, space, `u$v` tokenizes without error to `c` and to `u$v` at
offset `|c| + 1` with length `|u| + |v| + 1`; and for a further non-empty word
`d` of plain characters the text `c`, space, `u$`, space, `d` tokenizes to
`c`, `u$` at offset `|c| + 1` with length `|u| + 1`, and `d` at offset
`|c| + |u| + 3`. -/
theorem Tokenize_dollar_literal (c u v : List Char)
    (hc : c ≠ [] ∧ ∀ y ∈ c, plain y = true) (hu : ∀ y ∈ u, plain y = true)
    (hv : ∀ y ∈ v, plain y = true) (hv0 : ∀ y, v.head? = some y → y ≠ '(' ∧ y ≠ '{') :
    Tokenize (c ++ [' '] ++ u ++ ['$'] ++ v)
        = some ([NewArg c 0 c.length,
            NewArg (u ++ ['$'] ++ v) (c.length + 1) (u.length + v.length + 1)], none) ∧
      ∀ d : List Char, d ≠ [] → (∀ y ∈ d, plain y = true) →
        Tokenize (c ++ [' '] ++ u ++ ['$', ' '] ++ d)
          = some ([NewArg c 0 c.length, NewArg (u ++ ['$']) (c.length + 1) (u.length + 1),
              NewArg d (c.length + u.length + 3) d.length], none) := by
  have hp : (0 : Int) ≤ c.length + 1 := by omega
  have hpos : (0 : Int) < c.length + 1 := by omega
  constructor
  · rw [Tokenize_eq_run, newstate_eq]
    simp only [List.append_assoc, List.cons_append, List.nil_append]
    rw [run_first_word c _ hc.2, run_inSep_open u '$' _ _ _ hu (by decide) hp,
      run_inWord_dollar _ _ _ _ _ hp]
    cases v with
    | nil =>
      rw [run_nil_open _ _ hpos]
      simp only [inWordDollar, List.nil_append, List.cons_append, List.append_assoc, NewArg,
        List.length_nil, Nat.cast_zero, List.append_nil]
      simp only [Option.some.injEq, Prod.mk.injEq, List.cons.injEq, Arg.mk.injEq, and_true,
        true_and]
      omega
    | cons y v =>
      obtain ⟨h1, h2⟩ := hv0 y rfl
      have hv1 := run_inWord_plains (y :: v) [] (u ++ ['$']) (c.length + 1)
        (c.length + 1 + u.length + 1) [NewArg c 0 c.length] hv hp
      rw [List.append_nil] at hv1
      rw [run_inWordDollar_other y _ _ _ _ _ h1 h2, hv1, run_nil_inWord, if_pos hpos]
      simp only [List.nil_append, List.cons_append, List.append_assoc, NewArg,
        List.length_cons, Nat.cast_succ]
      simp only [Option.some.injEq, Prod.mk.injEq, List.cons.injEq, Arg.mk.injEq, and_true,
        true_and]
      omega
  · intro d hd hdp
    have hp2 : (0 : Int) ≤ c.length + 1 + u.length + 1 + 1 := by omega
    have hpos2 : (0 : Int) < c.length + 1 + u.length + 1 + 1 := by omega
    have hd1 := run_inSep_plains d [] (c.length + 1 + u.length + 1 + 1)
      ([NewArg c 0 c.length] ++
        [NewArg (u ++ ['$']) (c.length + 1) (c.length + 1 + u.length + 1 - (c.length + 1))])
      hdp hd hp2
    rw [List.append_nil] at hd1
    rw [Tokenize_eq_run, newstate_eq]
    simp only [List.append_assoc, List.cons_append, List.nil_append]
    rw [run_first_word c _ hc.2, run_inSep_open u '$' _ _ _ hu (by decide) hp,
      run_inWord_dollar _ _ _ _ _ hp, run_inWordDollar_other ' ' _ _ _ _ _ (by decide) (by decide),
      run_inWord_space ' ' _ _ _ _ _ isSpace_space, hd1, run_nil_inWord, if_pos hpos2]
    simp only [List.nil_append, List.cons_append, List.append_assoc, NewArg]
    simp only [Option.some.injEq, Prod.mk.injEq, List.cons.injEq, Arg.mk.injEq, and_true,
      true_and]
    omega

theorem Tokenize_dollar_literal_witness :
    Tokenize "echo a$CWD".toList
        = some ([NewArg "echo".toList 0 4, NewArg "a$CWD".toList 5 5], none) ∧
      Tokenize "echo a$ CWD".toList
        = some ([NewArg "echo".toList 0 4, NewArg "a$".toList 5 2, NewArg "CWD".toList 8 3],
            none) :=
  have h := Tokenize_dollar_literal "echo".toList "a".toList "CWD".toList
    (by decide) (by decide) (by decide) (by decide)
  ⟨h.1, h.2 "CWD".toList (by decide) (by decide)⟩

/-! ## Unsupported expansions -/

theorem run_idle_prefix (p : List Char) (hp : ∀ c ∈ p, plain c = true ∨ isSpace c = true)
    (st : lexstate) (args : List Arg) (hst : idle st) :
    ∃ st' args', idle st' ∧ ∀ rest, run (p ++ rest) st args = run rest st' args' := by
  induction p generalizing st args with
  | nil => exact ⟨st, args, hst, fun _ => rfl⟩
  | cons c p ih =>
    have hp' : ∀ d ∈ p, plain d = true ∨ isSpace d = true :=
      fun d hd => hp d (List.mem_cons_of_mem _ hd)
    rcases hst with ⟨buf, ip, q, hip, hq, rfl⟩ | ⟨q, hq, rfl⟩
    · rcases hp c (List.mem_cons_self _ _) with hc | hc
      · obtain ⟨st', args', h1, h2⟩ := ih hp' (inWord (buf ++ [c]) ip (q + 1)) args
          (Or.inl ⟨_, _, _, hip, by omega, rfl⟩)
        exact ⟨st', args', h1, fun rest => by
          rw [List.cons_append, run_inWord_plain c _ buf ip q args hc hip, h2]⟩
      · obtain ⟨st', args', h1, h2⟩ := ih hp' (inSep (q + 1)) (args ++ [NewArg buf ip (q - ip)])
          (Or.inr ⟨_, by omega, rfl⟩)
        exact ⟨st', args', h1, fun rest => by
          rw [List.cons_append, run_inWord_space c _ buf ip q args hc, h2]⟩
    · rcases hp c (List.mem_cons_self _ _) with hc | hc
      · obtain ⟨st', args', h1, h2⟩ := ih hp' (inWord ([] ++ [c]) q (q + 1)) args
          (Or.inl ⟨_, _, _, hq, by omega, rfl⟩)
        exact ⟨st', args', h1, fun rest => by
          rw [List.cons_append, run_inSep_word c _ q args ((plain_spec c).1 hc).1,
            run_inWord_plain c _ [] q q args hc hq, h2]⟩
      · obtain ⟨st', args', h1, h2⟩ := ih hp' (inSep (q + 1)) args (Or.inr ⟨_, by omega, rfl⟩)
        exact ⟨st', args', h1, fun rest => by
          rw [List.cons_append, run_inSep_space c _ q args hc, h2]⟩

/-- From an idle state a character that is not white space is read in default
mode with a word open. -/
theorem run_idle_word (d : Char) (rest : List Char) (st : lexstate) (args : List Arg)
    (hst : idle st) (hd : isSpace d = false) :
    ∃ buf ip p, 0 ≤ ip ∧ run (d :: rest) st args = run (d :: rest) (inWord buf ip p) args := by
  rcases hst with ⟨buf, ip, q, hip, -, rfl⟩ | ⟨q, hq, rfl⟩
  · exact ⟨buf, ip, q, hip, rfl⟩
  · exact ⟨[], q, q, hq, run_inSep_word d rest q args hd⟩

theorem run_idle_dollar_subst (c : Char) (s : List Char) (st : lexstate) (args : List Arg)
    (hst : idle st) (hc : c = '(' ∨ c = '{') :
    run ('$' :: c :: s) st args = some (args, some TokError.ErrShellParameterExpansion) := by
  obtain ⟨buf, ip, p, hip, h⟩ := run_idle_word '$' (c :: s) st args hst (by decide)
  rw [h, run_inWord_dollar _ _ _ _ _ hip, run_inWordDollar_subst c _ _ _ _ _ hc]

theorem run_idle_backtick (s : List Char) (st : lexstate) (args : List Arg) (hst : idle st) :
    run ('`' :: s) st args = some (args, some TokError.ErrShellParameterExpansion) := by
  obtain ⟨buf, ip, p, -, h⟩ := run_idle_word '`' s st args hst (by decide)
  rw [h, run_inWord_backtick]

theorem run_idle_dquote_dollar_subst (q : List Char) (c : Char) (s : List Char) (st : lexstate)
    (args : List Arg) (hst : idle st) (hq : ∀ y ∈ q, plain y = true) (hc : c = '(' ∨ c = '{') :
    run ('"' :: (q ++ '$' :: c :: s)) st args
      = some (args, some TokError.ErrShellParameterExpansion) := by
  obtain ⟨buf, ip, p, hip, h⟩ := run_idle_word '"' (q ++ '$' :: c :: s) st args hst (by decide)
  rw [h, run_inWord_dquote, run_inDouble_plains q _ _ _ _ _ hq hip,
    run_inDouble_dollar _ _ _ _ _ hip, run_inDoubleDollar_subst c _ _ _ _ _ hc]

theorem run_idle_dquote_backtick (q s : List Char) (st : lexstate) (args : List Arg)
    (hst : idle st) (hq : ∀ y ∈ q, plain y = true) :
    run ('"' :: (q ++ '`' :: s)) st args
      = some (args, some TokError.ErrShellParameterExpansion) := by
  obtain ⟨buf, ip, p, hip, h⟩ := run_idle_word '"' (q ++ '`' :: s) st args hst (by decide)
  rw [h, run_inWord_dquote, run_inDouble_plains q _ _ _ _ _ hq hip, run_inDouble_backtick]

theorem idle_newstate : idle newstate :=
  Or.inl ⟨[], 0, 0, le_rfl, le_rfl, rfl⟩

/-- C3: unsupported shell expansion is rejected. For every text `p` of plain
characters and white space, every string `q` of plain characters and every
text `s`, Tokenize returns `ErrShellParameterExpansion` on `p$(s`, `p${s` and
on `p` followed by a backtick and `s`, and also on the same three constructs
inside a double quote opened after `p` and followed by `q`. -/
theorem Tokenize_rejects_expansion (p q s : List Char)
    (hp : ∀ c ∈ p, plain c = true ∨ isSpace c = true) (hq : ∀ c ∈ q, plain c = true) :
    rejects (p ++ ['$', '('] ++ s) ∧ rejects (p ++ ['$', '{'] ++ s) ∧
      rejects (p ++ ['`'] ++ s) ∧
      rejects (p ++ ['"'] ++ q ++ ['$', '('] ++ s) ∧
      rejects (p ++ ['"'] ++ q ++ ['$', '{'] ++ s) ∧
      rejects (p ++ ['"'] ++ q ++ ['`'] ++ s) := by
  obtain ⟨st, args, hst, h⟩ := run_idle_prefix p hp newstate [] idle_newstate
  refine ⟨⟨args, ?_⟩, ⟨args, ?_⟩, ⟨args, ?_⟩, ⟨args, ?_⟩, ⟨args, ?_⟩, ⟨args, ?_⟩⟩ <;>
    rw [Tokenize_eq_run] <;>
    simp only [List.append_assoc, List.cons_append, List.nil_append] <;>
    rw [h]
  · exact run_idle_dollar_subst '(' s st args hst (Or.inl rfl)
  · exact run_idle_dollar_subst '{' s st args hst (Or.inr rfl)
  · exact run_idle_backtick s st args hst
  · exact run_idle_dquote_dollar_subst q '(' s st args hst hq (Or.inl rfl)
  · exact run_idle_dquote_dollar_subst q '{' s st args hst hq (Or.inr rfl)
  · exact run_idle_dquote_backtick q s st args hst hq

theorem Tokenize_rejects_expansion_witness :
    rejects "echo $(ls)".toList ∧ rejects "echo $\x7bls)".toList ∧ rejects "echo `ls)".toList ∧
      rejects "echo \"a$(ls)".toList ∧ rejects "echo \"a$\x7bls)".toList ∧
      rejects "echo \"a`ls)".toList :=
  Tokenize_rejects_expansion "echo ".toList "a".toList "ls)".toList (by decide) (by decide)

/-! ## Invariants of the loop -/

/-- The loop returns, and what it returns satisfies `Post`, when `Inv` holds
at the start, is kept by every pass that continues, and gives `Post` at every
pass that returns. -/
theorem run_induct (Inv : List Char → lexstate → List Arg → Prop)
    (Post : List Arg × Option TokError → Prop)
    (hnil : ∀ st args, Inv [] st args →
      Post (if st.initpos > 0 then (args ++ [st.Pull.1], none) else (args, none)))
    (hret : ∀ r rest st args a e, Inv (r :: rest) st args →
      iteration r st args = .ret a e → Post (a, e))
    (hnext : ∀ r rest st args st' a' u, Inv (r :: rest) st args →
      iteration r st args = .next st' a' u →
      Inv (if u then r :: rest else rest) (st'.Move 1) a')
    (reader : List Char) (st : lexstate) (args : List Arg) (h : Inv reader st args) :
    ∃ res, run reader st args = some res ∧ Post res := by
  obtain ⟨n, hn⟩ : ∃ n, budget reader st ≤ n := ⟨_, le_rfl⟩
  induction n generalizing reader st args with
  | zero =>
    cases reader with
    | nil =>
      refine ⟨_, ?_, hnil st args h⟩
      rw [run_nil]; split <;> rfl
    | cons r rest => simp [budget] at hn
  | succ n ih =>
    cases reader with
    | nil =>
      refine ⟨_, ?_, hnil st args h⟩
      rw [run_nil]; split <;> rfl
    | cons r rest =>
      rw [run_cons]
      cases hit : iteration r st args with
      | ret a e => exact ⟨_, rfl, hret r rest st args a e h hit⟩
      | next st' a' u =>
        have hb := iteration_budget r rest st st' args a' u hit
        exact ih _ _ _ (hnext r rest st args st' a' u h hit) (by omega)

theorem spansInv_mono (st st' : lexstate) (args : List Arg) (h : spansInv st args)
    (h1 : 0 ≤ st'.pos) (h2 : st'.initpos ≤ st'.pos)
    (h3 : st'.initpos < 0 → st'.InSeparator = true)
    (h4 : limit st.initpos st.pos ≤ limit st'.initpos st'.pos) : spansInv st' args := by
  obtain ⟨-, -, -, hpw, hall⟩ := h
  refine ⟨h1, h2, h3, hpw, fun a ha => ?_⟩
  obtain ⟨ha1, ha2, ha3⟩ := hall a ha
  exact ⟨ha1, ha2, le_trans ha3 h4⟩

theorem spansInv_pull (st st' : lexstate) (args : List Arg) (h : spansInv st args)
    (hip : 0 ≤ st.initpos) (h1 : st'.initpos < 0) (h2 : st.pos ≤ st'.pos)
    (h3 : st'.InSeparator = true) : spansInv st' (args ++ [st.Pull.1]) := by
  obtain ⟨hp, hle, -, hpw, hall⟩ := h
  have hlim : limit st.initpos st.pos = st.initpos := by simp [limit, not_lt.mpr hip]
  have hlim' : limit st'.initpos st'.pos = st'.pos := by simp [limit, h1]
  refine ⟨by omega, by omega, fun _ => h3, ?_, ?_⟩
  · rw [List.pairwise_append]
    refine ⟨hpw, List.pairwise_singleton _ _, fun a ha b hb => ?_⟩
    rw [List.mem_singleton] at hb
    subst hb
    have := (hall a ha).2.2
    rw [hlim] at this
    exact this
  · intro a ha
    rw [hlim']
    rw [List.mem_append, List.mem_singleton] at ha
    rcases ha with ha | rfl
    · obtain ⟨ha1, ha2, ha3⟩ := hall a ha
      rw [hlim] at ha3
      exact ⟨ha1, ha2, by omega⟩
    · simp only [lexstate.Pull, NewArg]
      exact ⟨hip, by omega, by omega⟩

theorem Push_initpos (l : lexstate) (r : Char) :
    (l.Push r).initpos = if l.initpos < 0 then l.pos else l.initpos := by
  unfold lexstate.Push; split <;> rfl

theorem Push_pos (l : lexstate) (r : Char) : (l.Push r).pos = l.pos := by
  unfold lexstate.Push; split <;> rfl


/-! ## The cases of the `switch`, by mode -/

theorem iteration_InDollar (r : Char) (st : lexstate) (args : List Arg)
    (h : st.InDollar = true) :
    iteration r st args
      = if r = '(' ∨ r = '{' then .ret args (some .ErrShellParameterExpansion)
        else .next ({ st with InDollar := false }.Move (-1)) args true := by
  unfold iteration
  rw [if_pos h]

theorem iteration_InSingleQuote (r : Char) (st : lexstate) (args : List Arg)
    (h0 : st.InDollar = false) (h : st.InSingleQuote = true) :
    iteration r st args
      = if r = '\'' then .next { st with InSingleQuote := false } args false
        else .next (st.Push r) args false := by
  unfold iteration
  rw [if_neg (by simp [h0]), if_pos h]

theorem iteration_InDoubleQuote (r : Char) (st : lexstate) (args : List Arg)
    (h0 : st.InDollar = false) (h1 : st.InSingleQuote = false) (h : st.InDoubleQuote = true) :
    iteration r st args
      = if st.InDoubleQuoteEscape then
          if r = '$' ∨ r = '`' ∨ r = '"' ∨ r = '\\' then
            .next ({ st with InDoubleQuoteEscape := false }.Push r) args false
          else
            .next (({ st with InDoubleQuoteEscape := false }.Push '\\').Push r) args false
        else if r = '\\' then .next { st with InDoubleQuoteEscape := true } args false
        else if r = '$' then .next ({ st with InDollar := true }.Push r) args false
        else if r = '`' then .ret args (some .ErrShellParameterExpansion)
        else if r = '"' then .next { st with InDoubleQuote := false } args false
        else .next (st.Push r) args false := by
  unfold iteration
  rw [if_neg (by simp [h0]), if_neg (by simp [h1]), if_pos h]

theorem iteration_InEscape (r : Char) (st : lexstate) (args : List Arg)
    (h0 : st.InDollar = false) (h1 : st.InSingleQuote = false) (h2 : st.InDoubleQuote = false)
    (h : st.InEscape = true) :
    iteration r st args
      = .next ({ st with InEscape := false, InSeparator := false }.Push r) args false := by
  unfold iteration
  rw [if_neg (by simp [h0]), if_neg (by simp [h1]), if_neg (by simp [h2]), if_pos h]

theorem iteration_InSeparator (r : Char) (st : lexstate) (args : List Arg)
    (h0 : st.InDollar = false) (h1 : st.InSingleQuote = false) (h2 : st.InDoubleQuote = false)
    (h3 : st.InEscape = false) (h : st.InSeparator = true) :
    iteration r st args
      = if isSpace r then .next st args false
        else .next ({ st with InSeparator := false, initpos := st.pos }.Move (-1)) args true := by
  unfold iteration
  rw [if_neg (by simp [h0]), if_neg (by simp [h1]), if_neg (by simp [h2]),
    if_neg (by simp [h3]), if_pos h]

theorem iteration_default (r : Char) (st : lexstate) (args : List Arg)
    (h0 : st.InDollar = false) (h1 : st.InSingleQuote = false) (h2 : st.InDoubleQuote = false)
    (h3 : st.InEscape = false) (h4 : st.InSeparator = false) :
    iteration r st args
      = if r = '`' then .ret args (some .ErrShellParameterExpansion)
        else if r = '\'' then .next { st with InSingleQuote := true } args false
        else if r = '"' then .next { st with InDoubleQuote := true } args false
        else if r = '\\' then .next { st with InEscape := true } args false
        else if r = '$' then .next ({ st with InDollar := true }.Push r) args false
        else if isSpace r then
          .next { st.Pull.2 with InSeparator := true } (args ++ [st.Pull.1]) false
        else .next (st.Push r) args false := by
  unfold iteration
  rw [if_neg (by simp [h0]), if_neg (by simp [h1]), if_neg (by simp [h2]),
    if_neg (by simp [h3]), if_neg (by simp [h4])]

theorem spansInv_step (st st' : lexstate) (args : List Arg) (hJ : spansInv st args)
    (hpos : st.pos ≤ st'.pos)
    (hinit : st'.initpos = st.initpos ∧ st'.InSeparator = st.InSeparator ∨
      st'.initpos = limit st.initpos st.pos ∨ st'.initpos = st.pos)
    (hle : st'.pos ≤ st.pos + 1) : spansInv st' args := by
  have hJ' := hJ
  obtain ⟨hp, hip, hsep, -, -⟩ := hJ'
  have hl1 : 0 ≤ limit st.initpos st.pos := by unfold limit; split <;> omega
  have hl2 : limit st.initpos st.pos ≤ st.pos := by unfold limit; split <;> omega
  have hl3 : ∀ q, 0 ≤ q → limit q st'.pos = q := fun q hq => by simp [limit, not_lt.mpr hq]
  refine spansInv_mono _ _ _ hJ (by omega) ?_ ?_ ?_
  · rcases hinit with ⟨h, -⟩ | h | h <;> omega
  · rcases hinit with ⟨h1, h2⟩ | h | h
    · rw [h1, h2]; exact hsep
    · intro hlt; omega
    · intro hlt; omega
  · rcases hinit with ⟨h1, -⟩ | h | h
    · rw [h1]; unfold limit; split <;> omega
    · rw [h, hl3 _ hl1]
    · rw [h, hl3 _ hp]; exact hl2

theorem iteration_spansInv (r : Char) (st st' : lexstate) (args args' : List Arg) (u : Bool)
    (hJ : spansInv st args) (h : iteration r st args = .next st' args' u) :
    spansInv (st'.Move 1) args' := by
  have hJ' := hJ
  obtain ⟨hp, hip, hsep, -, -⟩ := hJ'
  cases h0 : st.InDollar
  swap
  · rw [iteration_InDollar r st args h0] at h
    split at h <;> cases h
    exact spansInv_step _ _ _ hJ (by simp [lexstate.Move, Push_pos])
        (by simp [lexstate.Move, Push_initpos, Push_InSeparator, limit])
        (by simp [lexstate.Move, Push_pos])
  cases h1 : st.InSingleQuote
  swap
  · rw [iteration_InSingleQuote r st args h0 h1] at h
    split at h <;> cases h
    · exact spansInv_step _ _ _ hJ (by simp [lexstate.Move, Push_pos])
        (by simp [lexstate.Move, Push_initpos, Push_InSeparator, limit])
        (by simp [lexstate.Move, Push_pos])
    · exact spansInv_step _ _ _ hJ (by simp [lexstate.Move, Push_pos])
        (by simp [lexstate.Move, Push_initpos, Push_InSeparator, limit])
        (by simp [lexstate.Move, Push_pos])
  cases h2 : st.InDoubleQuote
  swap
  · rw [iteration_InDoubleQuote r st args h0 h1 h2] at h
    repeat' split at h
    all_goals cases h
    · exact spansInv_step _ _ _ hJ (by simp [lexstate.Move, Push_pos])
        (by simp [lexstate.Move, Push_initpos, Push_InSeparator, limit])
        (by simp [lexstate.Move, Push_pos])
    · refine spansInv_step _ _ _ hJ (by simp [lexstate.Move, Push_pos])
        (Or.inr (Or.inl ?_)) (by simp [lexstate.Move, Push_pos])
      simp only [lexstate.Move, Push_initpos, Push_pos, limit]
      split_ifs <;> omega
    · exact spansInv_step _ _ _ hJ (by simp [lexstate.Move, Push_pos])
        (by simp [lexstate.Move, Push_initpos, Push_InSeparator, limit])
        (by simp [lexstate.Move, Push_pos])
    · exact spansInv_step _ _ _ hJ (by simp [lexstate.Move, Push_pos])
        (by simp [lexstate.Move, Push_initpos, Push_InSeparator, limit])
        (by simp [lexstate.Move, Push_pos])
    · exact spansInv_step _ _ _ hJ (by simp [lexstate.Move, Push_pos])
        (by simp [lexstate.Move, Push_initpos, Push_InSeparator, limit])
        (by simp [lexstate.Move, Push_pos])
    · exact spansInv_step _ _ _ hJ (by simp [lexstate.Move, Push_pos])
        (by simp [lexstate.Move, Push_initpos, Push_InSeparator, limit])
        (by simp [lexstate.Move, Push_pos])
  cases h3 : st.InEscape
  swap
  · rw [iteration_InEscape r st args h0 h1 h2 h3] at h
    cases h
    exact spansInv_step _ _ _ hJ (by simp [lexstate.Move, Push_pos])
        (by simp [lexstate.Move, Push_initpos, Push_InSeparator, limit])
        (by simp [lexstate.Move, Push_pos])
  cases h4 : st.InSeparator
  swap
  · rw [iteration_InSeparator r st args h0 h1 h2 h3 h4] at h
    split at h <;> cases h
    · exact spansInv_step _ _ _ hJ (by simp [lexstate.Move, Push_pos])
        (by simp [lexstate.Move, Push_initpos, Push_InSeparator, limit])
        (by simp [lexstate.Move, Push_pos])
    · exact spansInv_step _ _ _ hJ (by simp [lexstate.Move, Push_pos])
        (by simp [lexstate.Move, Push_initpos, Push_InSeparator, limit])
        (by simp [lexstate.Move, Push_pos])
  rw [iteration_default r st args h0 h1 h2 h3 h4] at h
  repeat' split at h
  all_goals cases h
  · exact spansInv_step _ _ _ hJ (by simp [lexstate.Move, Push_pos])
        (by simp [lexstate.Move, Push_initpos, Push_InSeparator, limit])
        (by simp [lexstate.Move, Push_pos])
  · exact spansInv_step _ _ _ hJ (by simp [lexstate.Move, Push_pos])
        (by simp [lexstate.Move, Push_initpos, Push_InSeparator, limit])
        (by simp [lexstate.Move, Push_pos])
  · exact spansInv_step _ _ _ hJ (by simp [lexstate.Move, Push_pos])
        (by simp [lexstate.Move, Push_initpos, Push_InSeparator, limit])
        (by simp [lexstate.Move, Push_pos])
  · exact spansInv_step _ _ _ hJ (by simp [lexstate.Move, Push_pos])
        (by simp [lexstate.Move, Push_initpos, Push_InSeparator, limit])
        (by simp [lexstate.Move, Push_pos])
  · exact spansInv_pull _ _ _ hJ (not_lt.mp fun hlt => by simp [hsep hlt] at h4)
      (by simp [lexstate.Move, lexstate.Pull]) (by simp [lexstate.Move, lexstate.Pull]) rfl
  · exact spansInv_step _ _ _ hJ (by simp [lexstate.Move, Push_pos])
        (by simp [lexstate.Move, Push_initpos, Push_InSeparator, limit])
        (by simp [lexstate.Move, Push_pos])

theorem iteration_ret_args (r : Char) (st : lexstate) (args a : List Arg)
    (e : Option TokError) (h : iteration r st args = .ret a e) :
    a = args ∧ e = some TokError.ErrShellParameterExpansion := by
  cases h0 : st.InDollar
  swap
  · rw [iteration_InDollar r st args h0] at h
    split at h <;> cases h
    exact ⟨rfl, rfl⟩
  cases h1 : st.InSingleQuote
  swap
  · rw [iteration_InSingleQuote r st args h0 h1] at h
    split at h <;> cases h
  cases h2 : st.InDoubleQuote
  swap
  · rw [iteration_InDoubleQuote r st args h0 h1 h2] at h
    repeat' split at h
    all_goals cases h
    exact ⟨rfl, rfl⟩
  cases h3 : st.InEscape
  swap
  · rw [iteration_InEscape r st args h0 h1 h2 h3] at h
    cases h
  cases h4 : st.InSeparator
  swap
  · rw [iteration_InSeparator r st args h0 h1 h2 h3 h4] at h
    split at h <;> cases h
  rw [iteration_default r st args h0 h1 h2 h3 h4] at h
  repeat' split at h
  all_goals cases h
  exact ⟨rfl, rfl⟩

theorem spansInv_newstate : spansInv newstate [] := by
  refine ⟨le_rfl, le_rfl, fun h => absurd h (by decide), List.Pairwise.nil, ?_⟩
  intro a ha
  cases ha

/-- C4: for every text, whether Tokenize succeeds or fails, the returned
Args have offsets and lengths that are not negative, and for every two
consecutive Args `a`, `b` the span of `a` ends at or before the offset of `b`:
the words are in source order and their spans do not overlap. -/
theorem Tokenize_spans_ordered (text : List Char) :
    ∃ args err, Tokenize text = some (args, err) ∧
      (∀ a ∈ args, 0 ≤ a.Offset ∧ 0 ≤ a.Length) ∧
      ∀ (i : Nat) (hi : i + 1 < args.length),
        0 ≤ args[i].Offset ∧ 0 ≤ args[i].Length ∧
          args[i].Offset + args[i].Length ≤ args[i + 1].Offset := by
  have key := run_induct (fun _ st args => spansInv st args)
    (fun res => res.1.Pairwise (fun a b => a.Offset + a.Length ≤ b.Offset) ∧
      ∀ a ∈ res.1, 0 ≤ a.Offset ∧ 0 ≤ a.Length)
    (fun st args hJ => by
      split
      · rename_i hpos
        have h := spansInv_pull st { st.Pull.2 with InSeparator := true } args hJ
          (le_of_lt hpos) (by simp [lexstate.Pull]) (by simp [lexstate.Pull]) rfl
        exact ⟨h.2.2.2.1, fun a ha => ⟨(h.2.2.2.2 a ha).1, (h.2.2.2.2 a ha).2.1⟩⟩
      · exact ⟨hJ.2.2.2.1, fun a ha => ⟨(hJ.2.2.2.2 a ha).1, (hJ.2.2.2.2 a ha).2.1⟩⟩)
    (fun r rest st args a e hJ hit => by
      obtain ⟨rfl, -⟩ := iteration_ret_args r st args a e hit
      exact ⟨hJ.2.2.2.1, fun a ha => ⟨(hJ.2.2.2.2 a ha).1, (hJ.2.2.2.2 a ha).2.1⟩⟩)
    (fun r rest st args st' a' u hJ hit => iteration_spansInv r st st' args a' u hJ hit)
    text newstate [] spansInv_newstate
  obtain ⟨⟨args, err⟩, hrun, hpw, hall⟩ := key
  refine ⟨args, err, by rw [Tokenize_eq_run, hrun], hall, fun i hi => ?_⟩
  have hi0 : i < args.length := by omega
  exact ⟨(hall _ (List.getElem_mem hi0)).1, (hall _ (List.getElem_mem hi0)).2,
    List.pairwise_iff_getElem.1 hpw i (i + 1) hi0 hi (Nat.lt_succ_self i)⟩

theorem Tokenize_spans_ordered_witness :
    ∃ args err, Tokenize "ab 'c d' $(".toList = some (args, err) ∧
      (∀ a ∈ args, 0 ≤ a.Offset ∧ 0 ≤ a.Length) ∧
      ∀ (i : Nat) (hi : i + 1 < args.length),
        0 ≤ args[i].Offset ∧ 0 ≤ args[i].Length ∧
          args[i].Offset + args[i].Length ≤ args[i + 1].Offset :=
  Tokenize_spans_ordered "ab 'c d' $(".toList

/-! ## Round trip: the span of a word decodes to its value -/

theorem decodeFrom_nil (m : Mode) : decodeFrom m [] = [] := by
  cases m <;> rfl

theorem spanOf_pull (pre reader buf : List Char) (ip : Int) (h0 : 0 ≤ ip)
    (hle : ip ≤ pre.length) :
    spanOf (pre ++ reader) (NewArg buf ip (pre.length - ip)) = pre.drop ip.toNat := by
  have h1 : ip.toNat ≤ pre.length := by omega
  have h2 : ((pre.length : Int) - ip).toNat = pre.length - ip.toNat := by omega
  simp only [spanOf, NewArg]
  rw [h2, List.drop_append_of_le_length h1, List.take_append_of_le_length (by simp),
    List.take_of_length_le (by simp)]

/-- The Arg pulled from an open word has span integrity. -/
theorem spanOK_pull (pre reader : List Char) (st : lexstate)
    (hp : st.pos = pre.length) (h0 : 0 ≤ st.initpos) (hle : st.initpos ≤ st.pos)
    (hrel : decodeFrom .default (pre.drop st.initpos.toNat) = st.buf) :
    spanOK (pre ++ reader) st.Pull.1 := by
  have hsp := spanOf_pull pre reader st.buf st.initpos h0 (by omega)
  simp only [lexstate.Pull, hp]
  refine ⟨h0, ?_, ?_, ?_⟩
  · simp only [NewArg]; omega
  · simp only [NewArg, List.length_append]; omega
  · rw [decode, hsp]; exact hrel

theorem roundInv_consume (T : List Char) (r : Char) (rest : List Char) (st st' : lexstate)
    (args : List Arg) (hI : roundInv T (r :: rest) st args) (hsep : st.InSeparator = false)
    (hpos : st'.pos = st.pos + 1) (hip : st'.initpos = st.initpos)
    (hc : canonical st' = true) (hsep' : st'.InSeparator = false)
    (hdec : ∃ e, st'.buf = st.buf ++ e ∧
      ∀ s, decodeFrom (wordMode st) (r :: s) = e ++ decodeFrom (wordMode st') s) :
    roundInv T rest st' args := by
  obtain ⟨pre, hT, hp, -, hargs, -, hw⟩ := hI
  obtain ⟨h0, hle, hrel⟩ := hw hsep
  obtain ⟨e, hbuf, hd⟩ := hdec
  refine ⟨pre ++ [r], by simp [hT], by simp [hpos, hp], hc, hargs,
    fun h => by simp [hsep'] at h, fun _ => ⟨by omega, by omega, fun s => ?_⟩⟩
  have hlen : st.initpos.toNat ≤ pre.length := by omega
  rw [hip, hbuf, List.drop_append_of_le_length hlen, List.append_assoc, List.singleton_append,
    hrel, hd, List.append_assoc]

theorem roundInv_sep_space (T : List Char) (r : Char) (rest : List Char) (st : lexstate)
    (args : List Arg) (hI : roundInv T (r :: rest) st args) (hsep : st.InSeparator = true) :
    roundInv T rest (st.Move 1) args := by
  obtain ⟨pre, hT, hp, hc, hargs, hs, -⟩ := hI
  exact ⟨pre ++ [r], by simp [hT], by simp [lexstate.Move, hp], hc, hargs, fun _ => hs hsep,
    fun h => by simp [lexstate.Move, hsep] at h⟩

theorem Move_back (st : lexstate) : (st.Move (-1)).Move 1 = st := by
  simp [lexstate.Move]

theorem roundInv_unread_dollar (T reader : List Char) (st : lexstate) (args : List Arg)
    (hI : roundInv T reader st args) :
    roundInv T reader (({ st with InDollar := false }.Move (-1)).Move 1) args := by
  rw [Move_back]
  exact hI

theorem roundInv_open (T reader : List Char) (st : lexstate) (args : List Arg)
    (hI : roundInv T reader st args) (hsep : st.InSeparator = true) :
    roundInv T reader
      (({ st with InSeparator := false, initpos := st.pos }.Move (-1)).Move 1) args := by
  rw [Move_back]
  obtain ⟨pre, hT, hp, hc, hargs, hs, -⟩ := hI
  obtain ⟨-, hbuf⟩ := hs hsep
  have hflags : st.InSingleQuote = false ∧ st.InDoubleQuote = false ∧
      st.InDoubleQuoteEscape = false ∧ st.InEscape = false := by
    simp [canonical, hsep] at hc
    exact hc
  obtain ⟨f1, f2, f3, f4⟩ := hflags
  refine ⟨pre, hT, hp, by simp [canonical, f1, f2, f3, f4], hargs,
    fun h => by simp at h, fun _ => ⟨by simp [hp], le_rfl, fun s => ?_⟩⟩
  simp [hp, hbuf, wordMode, f1, f2, f3, f4]

theorem roundInv_pull (T : List Char) (r : Char) (rest : List Char) (st : lexstate)
    (args : List Arg) (hI : roundInv T (r :: rest) st args)
    (hsq : st.InSingleQuote = false) (hdq : st.InDoubleQuote = false)
    (hesc : st.InEscape = false) (hsep : st.InSeparator = false) :
    roundInv T rest ({ st.Pull.2 with InSeparator := true }.Move 1) (args ++ [st.Pull.1]) := by
  obtain ⟨pre, hT, hp, hc, hargs, -, hw⟩ := hI
  obtain ⟨h0, hle, hrel⟩ := hw hsep
  have hdqe : st.InDoubleQuoteEscape = false := by
    simp [canonical, hsq, hdq, hesc, hsep] at hc
    exact hc
  have hbuf : decodeFrom .default (pre.drop st.initpos.toNat) = st.buf := by
    have := hrel []
    simpa [wordMode, hsq, hdq, hesc, decodeFrom_nil] using this
  refine ⟨pre ++ [r], by simp [hT], by simp [lexstate.Move, lexstate.Pull, hp],
    by simp [canonical, lexstate.Move, lexstate.Pull, hsq, hdq, hesc, hdqe], ?_,
    fun _ => ⟨by simp [lexstate.Move, lexstate.Pull], by simp [lexstate.Move, lexstate.Pull]⟩,
    fun h => by simp [lexstate.Move] at h⟩
  intro w hw'
  rw [List.mem_append, List.mem_singleton] at hw'
  rcases hw' with hw' | rfl
  · exact hargs w hw'
  · rw [hT]
    exact spanOK_pull pre (r :: rest) st hp h0 hle hbuf

theorem Push_mk (buf : List Char) (ip p : Int) (sq dq sep dqe esc dol : Bool) (r : Char)
    (h : 0 ≤ ip) :
    (lexstate.mk buf ip p sq dq sep dqe esc dol).Push r
      = ⟨buf ++ [r], ip, p, sq, dq, sep, dqe, esc, dol⟩ := by
  simp [lexstate.Push, not_lt.mpr h]

theorem roundInv_initpos (T reader : List Char) (st : lexstate) (args : List Arg)
    (hI : roundInv T reader st args) (hsep : st.InSeparator = false) : 0 ≤ st.initpos := by
  obtain ⟨pre, -, -, -, -, -, hw⟩ := hI
  exact (hw hsep).1

theorem iteration_roundInv (T : List Char) (r : Char) (rest : List Char) (st st' : lexstate)
    (args args' : List Arg) (u : Bool) (hI : roundInv T (r :: rest) st args)
    (h : iteration r st args = .next st' args' u) :
    roundInv T (if u then r :: rest else rest) (st'.Move 1) args' := by
  have hc : canonical st = true := by
    obtain ⟨_, _, _, hc, _⟩ := hI
    exact hc
  rcases st with ⟨buf, ip, p, sq, dq, sep, dqe, esc, dol⟩
  cases dol
  swap
  · rw [iteration_InDollar _ _ _ rfl] at h
    split at h <;> cases h
    exact roundInv_unread_dollar T (r :: rest) _ args hI
  simp only [canonical, List.mem_cons, Prod.mk.injEq, List.mem_singleton, List.not_mem_nil,
    or_false, decide_eq_true_eq] at hc
  rcases hc with ⟨rfl, rfl, rfl, rfl, rfl⟩ | ⟨rfl, rfl, rfl, rfl, rfl⟩ |
    ⟨rfl, rfl, rfl, rfl, rfl⟩ | ⟨rfl, rfl, rfl, rfl, rfl⟩ | ⟨rfl, rfl, rfl, rfl, rfl⟩ |
    ⟨rfl, rfl, rfl, rfl, rfl⟩
  · -- default mode
    have h0 : 0 ≤ ip := roundInv_initpos _ _ _ _ hI rfl
    rw [iteration_default _ _ _ rfl rfl rfl rfl rfl] at h
    repeat' split at h
    all_goals cases h
    · refine roundInv_consume T r rest _ _ args hI rfl ?_ ?_ ?_ ?_ ⟨[], ?_, fun s => ?_⟩ <;>
        simp [lexstate.Move, canonical, wordMode, decodeFrom, *]
    · refine roundInv_consume T r rest _ _ args hI rfl ?_ ?_ ?_ ?_ ⟨[], ?_, fun s => ?_⟩ <;>
        simp [lexstate.Move, canonical, wordMode, decodeFrom, *]
    · refine roundInv_consume T r rest _ _ args hI rfl ?_ ?_ ?_ ?_ ⟨[], ?_, fun s => ?_⟩ <;>
        simp [lexstate.Move, canonical, wordMode, decodeFrom, *]
    · refine roundInv_consume T r rest _ _ args hI rfl ?_ ?_ ?_ ?_ ⟨[r], ?_, fun s => ?_⟩ <;>
        simp [lexstate.Move, Push_mk, h0, canonical, wordMode, decodeFrom, *]
    · exact roundInv_pull T r rest _ args hI rfl rfl rfl rfl
    · refine roundInv_consume T r rest _ _ args hI rfl ?_ ?_ ?_ ?_ ⟨[r], ?_, fun s => ?_⟩ <;>
        simp [lexstate.Move, Push_mk, h0, canonical, wordMode, decodeFrom, *]
  · -- single quote mode
    have h0 : 0 ≤ ip := roundInv_initpos _ _ _ _ hI rfl
    rw [iteration_InSingleQuote _ _ _ rfl rfl] at h
    split at h <;> cases h
    · refine roundInv_consume T r rest _ _ args hI rfl ?_ ?_ ?_ ?_ ⟨[], ?_, fun s => ?_⟩ <;>
        simp [lexstate.Move, canonical, wordMode, decodeFrom, *]
    · refine roundInv_consume T r rest _ _ args hI rfl ?_ ?_ ?_ ?_ ⟨[r], ?_, fun s => ?_⟩ <;>
        simp [lexstate.Move, Push_mk, h0, canonical, wordMode, decodeFrom, *]
  · -- double quote mode
    have h0 : 0 ≤ ip := roundInv_initpos _ _ _ _ hI rfl
    rw [iteration_InDoubleQuote _ _ _ rfl rfl rfl] at h
    simp only [Bool.false_eq_true, if_false] at h
    repeat' split at h
    all_goals cases h
    · refine roundInv_consume T r rest _ _ args hI rfl ?_ ?_ ?_ ?_ ⟨[], ?_, fun s => ?_⟩ <;>
        simp [lexstate.Move, canonical, wordMode, decodeFrom, *]
    · refine roundInv_consume T r rest _ _ args hI rfl ?_ ?_ ?_ ?_ ⟨[r], ?_, fun s => ?_⟩ <;>
        simp [lexstate.Move, Push_mk, h0, canonical, wordMode, decodeFrom, *]
    · refine roundInv_consume T r rest _ _ args hI rfl ?_ ?_ ?_ ?_ ⟨[], ?_, fun s => ?_⟩ <;>
        simp [lexstate.Move, canonical, wordMode, decodeFrom, *]
    · refine roundInv_consume T r rest _ _ args hI rfl ?_ ?_ ?_ ?_ ⟨[r], ?_, fun s => ?_⟩ <;>
        simp [lexstate.Move, Push_mk, h0, canonical, wordMode, decodeFrom, *]
  · -- double quote mode, after a backslash
    have h0 : 0 ≤ ip := roundInv_initpos _ _ _ _ hI rfl
    rw [iteration_InDoubleQuote _ _ _ rfl rfl rfl] at h
    simp only [if_true] at h
    split at h <;> cases h
    · refine roundInv_consume T r rest _ _ args hI rfl ?_ ?_ ?_ ?_ ⟨[r], ?_, fun s => ?_⟩ <;>
        simp [lexstate.Move, Push_mk, h0, canonical, wordMode, decodeFrom, *]
    · refine roundInv_consume T r rest _ _ args hI rfl ?_ ?_ ?_ ?_
          ⟨['\\', r], ?_, fun s => ?_⟩ <;>
        simp [lexstate.Move, Push_mk, h0, canonical, wordMode, decodeFrom, *]
  · -- after an unquoted backslash
    have h0 : 0 ≤ ip := roundInv_initpos _ _ _ _ hI rfl
    rw [iteration_InEscape _ _ _ rfl rfl rfl rfl] at h
    cases h
    refine roundInv_consume T r rest _ _ args hI rfl ?_ ?_ ?_ ?_ ⟨[r], ?_, fun s => ?_⟩ <;>
      simp [lexstate.Move, Push_mk, h0, canonical, wordMode, decodeFrom, *]
  · -- separator mode
    rw [iteration_InSeparator _ _ _ rfl rfl rfl rfl rfl] at h
    split at h <;> cases h
    · exact roundInv_sep_space T r rest _ args hI rfl
    · exact roundInv_open T (r :: rest) _ args hI rfl

theorem roundInv_newstate (T : List Char) : roundInv T T newstate [] := by
  refine ⟨[], rfl, rfl, ?_, ?_, ?_, ?_⟩
  · decide
  · intro w hw
    cases hw
  · intro h
    simp [newstate] at h
  · intro _
    refine ⟨le_rfl, le_rfl, fun s => ?_⟩
    simp [newstate, wordMode]

theorem roundInv_eof (T : List Char) (st : lexstate) (args : List Arg)
    (hI : roundInv T [] st args) (hpos : st.initpos > 0) : spanOK T st.Pull.1 := by
  obtain ⟨pre, hT, hp, -, -, hs, hw⟩ := hI
  cases hsep : st.InSeparator
  · obtain ⟨h0, hle, hrel⟩ := hw hsep
    have hbuf : decodeFrom .default (pre.drop st.initpos.toNat) = st.buf := by
      have := hrel []
      simpa [decodeFrom_nil] using this
    rw [hT]
    exact spanOK_pull pre [] st hp h0 hle hbuf
  · have := (hs hsep).1
    omega

/-- Every Arg Tokenize returns, with or without an error, has span
integrity. -/
theorem Tokenize_spanOK (T : List Char) :
    ∃ args err, Tokenize T = some (args, err) ∧ ∀ w ∈ args, spanOK T w := by
  have key := run_induct (fun reader st args => roundInv T reader st args)
    (fun res => ∀ w ∈ res.1, spanOK T w)
    (fun st args hI => by
      have hargs : ∀ w ∈ args, spanOK T w := by
        obtain ⟨_, _, _, _, hargs, _⟩ := hI
        exact hargs
      split
      · rename_i hpos
        intro w hw
        rw [List.mem_append, List.mem_singleton] at hw
        rcases hw with hw | rfl
        · exact hargs w hw
        · exact roundInv_eof T st args hI hpos
      · exact hargs)
    (fun r rest st args a e hI hit => by
      obtain ⟨rfl, -⟩ := iteration_ret_args r st args a e hit
      obtain ⟨_, _, _, _, hargs, _⟩ := hI
      exact hargs)
    (fun r rest st args st' a' u hI hit => iteration_roundInv T r rest st st' args a' u hI hit)
    T newstate [] (roundInv_newstate T)
  obtain ⟨⟨args, err⟩, hrun, hall⟩ := key
  exact ⟨args, err, by rw [Tokenize_eq_run, hrun], hall⟩

/-- C5: round-trip span integrity. For every text `T` on which Tokenize
succeeds and every returned Arg `w`, the span lies inside `T` and decoding the
characters of `T` at the indices `[w.Offset, w.Offset + w.Length)` with the
quote and escape rules, from the default mode, gives exactly `w.Val`. -/
theorem Tokenize_round_trip (T : List Char) (args : List Arg)
    (h : Tokenize T = some (args, none)) (w : Arg) (hw : w ∈ args) :
    0 ≤ w.Offset ∧ 0 ≤ w.Length ∧ w.Offset + w.Length ≤ T.length ∧
      decode ((T.drop w.Offset.toNat).take w.Length.toNat) = w.Val := by
  obtain ⟨args', err, h', hall⟩ := Tokenize_spanOK T
  rw [h] at h'
  cases h'
  exact hall w hw

theorem Tokenize_round_trip_witness :
    (0 : Int) ≤ 9 ∧ (0 : Int) ≤ 6 ∧ (9 : Int) + 6 ≤ "ab 'c d' \"e\\\"f\" g\\ $h".toList.length ∧
      decode (("ab 'c d' \"e\\\"f\" g\\ $h".toList.drop 9).take 6) = "e\"f".toList :=
  Tokenize_round_trip "ab 'c d' \"e\\\"f\" g\\ $h".toList
    [NewArg "ab".toList 0 2, NewArg "c d".toList 3 5, NewArg "e\"f".toList 9 6,
      NewArg "g $h".toList 16 5]
    (by decide) (NewArg "e\"f".toList 9 6) (by decide)

/-! ## Totality of Tokenize -/

/-- C11: Tokenize is total. For every text of `n` characters the loop
returns within `2 * n + 1` passes (more fuel gives the same result), and the
result is a word list with no error or with the single error
`ErrShellParameterExpansion`. -/
theorem Tokenize_total (text : List Char) :
    ∃ args err, TokenizeLoop (2 * text.length + 1) text newstate [] = some (args, err) ∧
      (err = none ∨ err = some TokError.ErrShellParameterExpansion) ∧
      ∀ fuel, 2 * text.length + 1 ≤ fuel →
        TokenizeLoop fuel text newstate [] = some (args, err) := by
  obtain ⟨⟨args, err⟩, hrun, -⟩ := run_induct (fun _ _ _ => True) (fun _ => True)
    (fun _ _ _ => trivial) (fun _ _ _ _ _ _ _ _ => trivial)
    (fun _ _ _ _ _ _ _ _ _ => trivial) text newstate [] trivial
  have hb : budget text newstate = 2 * text.length := by simp [budget, newstate]
  have hfuel : ∀ fuel, 2 * text.length + 1 ≤ fuel →
      TokenizeLoop fuel text newstate [] = some (args, err) := by
    intro fuel hf
    rw [← hrun, run]
    exact TokenizeLoop_stable _ _ _ _ _ (by omega) (by omega)
  refine ⟨args, err, hfuel _ le_rfl, ?_, hfuel⟩
  cases err with
  | none => exact Or.inl rfl
  | some e => cases e; exact Or.inr rfl

/-! ## The cursor: parseArgs, position and Prefix -/

/-- C12 (the code at the failing input): on the line `toto` with the cursor
at its end, position 4, right after the non-white-space byte `o`, parseArgs
returns no word and `inword = false`. -/
theorem parseArgs_first_word_not_inword :
    parseArgs (bytesOf "toto") 4 = some (.ret [] false none) ∧
      (bytesOf "toto").get? 3 = some 'o'.toNat ∧ isSpace 'o' = false := by
  decide

/-- C14 (the code at the failing input): with a position beyond the end of
the line, or a negative one, the slice expression of parseArgs panics. -/
theorem parseArgs_out_of_range_panics :
    parseArgs (bytesOf "toto") 5 = some .panic ∧
      parseArgs (bytesOf "toto") (-1) = some .panic := by
  decide

/-- C15: Prefix returns `(len(args), "")` when not in a word, `(-1, "")`
when in a word with no args, and for a non-empty list, written `l ++ [a]`,
in a word, `(len(args) - 1, a)` with `a` the last element. -/
theorem Prefix_spec (args l : List (List Char)) (a : List Char) :
    Prefix args false = ((args.length : Int), []) ∧
      Prefix [] true = (-1, []) ∧
      Prefix (l ++ [a]) true = (((l ++ [a]).length : Int) - 1, a) := by
  refine ⟨by simp [Prefix], by decide, ?_⟩
  have h1 : ((l ++ [a]).length : Int) - 1 = (l.length : Int) := by simp
  have h2 : ¬ ((l.length : Int) < 0) := by omega
  simp only [Prefix, h1]
  simp [h2, List.getD_eq_getElem?_getD]
/-! ## The first Arg ends before the end of the text -/

theorem iteration_pos (r : Char) (st st' : lexstate) (args args' : List Arg) (u : Bool)
    (h : iteration r st args = .next st' args' u) :
    (st'.Move 1).pos = st.pos + (if u then 0 else 1) := by
  cases h0 : st.InDollar
  swap
  · rw [iteration_InDollar r st args h0] at h
    split at h <;> cases h
    simp [lexstate.Move]
  cases h1 : st.InSingleQuote
  swap
  · rw [iteration_InSingleQuote r st args h0 h1] at h
    split at h <;> cases h <;> simp [lexstate.Move, Push_pos]
  cases h2 : st.InDoubleQuote
  swap
  · rw [iteration_InDoubleQuote r st args h0 h1 h2] at h
    repeat' split at h
    all_goals cases h
    all_goals simp [lexstate.Move, Push_pos]
  cases h3 : st.InEscape
  swap
  · rw [iteration_InEscape r st args h0 h1 h2 h3] at h
    cases h
    simp [lexstate.Move, Push_pos]
  cases h4 : st.InSeparator
  swap
  · rw [iteration_InSeparator r st args h0 h1 h2 h3 h4] at h
    split at h <;> cases h <;> simp [lexstate.Move]
  rw [iteration_default r st args h0 h1 h2 h3 h4] at h
  repeat' split at h
  all_goals cases h
  all_goals simp [lexstate.Move, Push_pos, lexstate.Pull]

theorem firstInv_step (st st' : lexstate) (args : List Arg) (h : firstInv st args)
    (hpos : st.pos ≤ st'.pos)
    (hinit : args = [] → st'.initpos = 0 ∧ st'.InSeparator = false) : firstInv st' args :=
  ⟨hinit, fun w hw => lt_of_lt_of_le (h.2 w hw) hpos⟩

theorem firstInv_pull (st st' : lexstate) (args : List Arg) (h : firstInv st args)
    (hpos : st'.pos = st.pos + 1) : firstInv st' (args ++ [st.Pull.1]) := by
  refine ⟨fun hnil => by simp at hnil, fun w hw => ?_⟩
  cases args with
  | nil =>
    simp only [List.nil_append, List.head?_cons, Option.some.injEq] at hw
    subst hw
    simp only [lexstate.Pull, NewArg]
    omega
  | cons a rest =>
    have := h.2 w (by simpa using hw)
    omega

theorem iteration_firstInv (r : Char) (st st' : lexstate) (args args' : List Arg) (u : Bool)
    (hF : firstInv st args) (h : iteration r st args = .next st' args' u) :
    firstInv (st'.Move 1) args' := by
  have hpos := iteration_pos r st st' args args' u h
  have hle : st.pos ≤ (st'.Move 1).pos := by rw [hpos]; split <;> omega
  cases h0 : st.InDollar
  swap
  · rw [iteration_InDollar r st args h0] at h
    split at h <;> cases h
    exact firstInv_step _ _ _ hF hle hF.1
  cases h1 : st.InSingleQuote
  swap
  · rw [iteration_InSingleQuote r st args h0 h1] at h
    split at h <;> cases h <;>
      exact firstInv_step _ _ _ hF hle (fun hnil => by
        obtain ⟨hi, hs⟩ := hF.1 hnil
        simp [lexstate.Move, Push_initpos, Push_InSeparator, hi, hs])
  cases h2 : st.InDoubleQuote
  swap
  · rw [iteration_InDoubleQuote r st args h0 h1 h2] at h
    repeat' split at h
    all_goals cases h
    all_goals
      exact firstInv_step _ _ _ hF hle (fun hnil => by
        obtain ⟨hi, hs⟩ := hF.1 hnil
        simp [lexstate.Move, Push_initpos, Push_InSeparator, hi, hs])
  cases h3 : st.InEscape
  swap
  · rw [iteration_InEscape r st args h0 h1 h2 h3] at h
    cases h
    exact firstInv_step _ _ _ hF hle (fun hnil => by
      obtain ⟨hi, hs⟩ := hF.1 hnil
      simp [lexstate.Move, Push_initpos, Push_InSeparator, hi])
  cases h4 : st.InSeparator
  swap
  · have hne : args ≠ [] := fun hnil => by
      have := (hF.1 hnil).2
      rw [h4] at this
      cases this
    rw [iteration_InSeparator r st args h0 h1 h2 h3 h4] at h
    split at h <;> cases h <;> exact firstInv_step _ _ _ hF hle (fun hnil => absurd hnil hne)
  rw [iteration_default r st args h0 h1 h2 h3 h4] at h
  repeat' split at h
  all_goals cases h
  · exact firstInv_step _ _ _ hF hle (fun hnil => by
      obtain ⟨hi, hs⟩ := hF.1 hnil
      simp [lexstate.Move, Push_initpos, Push_InSeparator, hi, hs])
  · exact firstInv_step _ _ _ hF hle (fun hnil => by
      obtain ⟨hi, hs⟩ := hF.1 hnil
      simp [lexstate.Move, Push_initpos, Push_InSeparator, hi, hs])
  · exact firstInv_step _ _ _ hF hle (fun hnil => by
      obtain ⟨hi, hs⟩ := hF.1 hnil
      simp [lexstate.Move, Push_initpos, Push_InSeparator, hi, hs])
  · exact firstInv_step _ _ _ hF hle (fun hnil => by
      obtain ⟨hi, hs⟩ := hF.1 hnil
      simp [lexstate.Move, Push_initpos, Push_InSeparator, hi, hs])
  · exact firstInv_pull _ _ _ hF (by simp [lexstate.Move, lexstate.Pull])
  · exact firstInv_step _ _ _ hF hle (fun hnil => by
      obtain ⟨hi, hs⟩ := hF.1 hnil
      simp [lexstate.Move, Push_initpos, Push_InSeparator, hi, hs])

/-- The first Arg Tokenize returns, with or without an error, ends before
the end of the text. -/
theorem Tokenize_first_arg (T : List Char) (args : List Arg) (err : Option TokError)
    (h : Tokenize T = some (args, err)) (w : Arg) (hw : args.head? = some w) :
    w.Offset + w.Length < T.length := by
  have key := run_induct
    (fun reader st args => st.pos + reader.length = T.length ∧ firstInv st args)
    (fun res => ∀ w, res.1.head? = some w → w.Offset + w.Length < T.length)
    (fun st args hI => by
      obtain ⟨hlen, hF⟩ := hI
      simp only [List.length_nil, Nat.cast_zero, add_zero] at hlen
      split
      · rename_i hpos
        intro w hw
        cases args with
        | nil =>
          have := (hF.1 rfl).1
          omega
        | cons a rest =>
          have := hF.2 w (by simpa using hw)
          omega
      · intro w hw
        have := hF.2 w hw
        omega)
    (fun r rest st args a e hI hit => by
      obtain ⟨rfl, -⟩ := iteration_ret_args r st args a e hit
      obtain ⟨hlen, hF⟩ := hI
      intro w hw
      have := hF.2 w hw
      have hl : (0 : Int) ≤ ((r :: rest).length : Int) := by omega
      omega)
    (fun r rest st args st' a' u hI hit => by
      obtain ⟨hlen, hF⟩ := hI
      refine ⟨?_, iteration_firstInv r st st' args a' u hF hit⟩
      have hl : ((r :: rest).length : Int) = (rest.length : Int) + 1 := by simp
      rw [iteration_pos r st st' args a' u hit]
      rw [hl] at hlen
      cases u
      · simp only [Bool.false_eq_true, if_false]
        omega
      · simp only [if_true, hl]
        omega)
    T newstate [] ⟨by simp [newstate], fun _ => ⟨rfl, rfl⟩, fun w hw => by cases hw⟩
  obtain ⟨res, hrun, hpost⟩ := key
  rw [Tokenize_eq_run, hrun] at h
  cases h
  exact hpost w hw
/-! ## parseArgs: when the cursor is in a word -/

theorem readRunes_length (fuel : Nat) (s : List Nat) : (readRunes fuel s).length ≤ fuel := by
  induction fuel generalizing s with
  | zero => simp [readRunes]
  | succ n ih =>
    cases s with
    | nil => simp [readRunes]
    | cons c t =>
      simp only [readRunes]
      split
      · simpa using ih t
      · simpa using ih _

/-- A string has at most as many runes as bytes. -/
theorem runesOf_length (s : List Nat) : (runesOf s).length ≤ s.length :=
  readRunes_length s.length s

theorem decodeSeq_size_pos (s0 sz lo hi : Nat) (t : List Nat) :
    1 ≤ (decodeSeq s0 sz lo hi t).2 := by
  unfold decodeSeq
  repeat' split
  all_goals simp

theorem decodeRune_size_pos (c : Nat) (t : List Nat) : 1 ≤ (decodeRune (c :: t)).2 := by
  rw [decodeRune]
  split
  · simp
  split
  · simp
  exact decodeSeq_size_pos _ _ _ _ _

theorem readRunes_stable (f g : Nat) (s : List Nat) (hf : s.length ≤ f) (hg : s.length ≤ g) :
    readRunes f s = readRunes g s := by
  induction f generalizing g s with
  | zero =>
    have : s = [] := List.length_eq_zero.mp (by omega)
    subst this
    cases g <;> rfl
  | succ n ih =>
    cases s with
    | nil => cases g <;> rfl
    | cons c t =>
      have hd := decodeRune_size_pos c t
      have hlen : ((c :: t).drop (decodeRune (c :: t)).2).length ≤ t.length := by
        simp only [List.length_drop, List.length_cons]
        omega
      simp only [List.length_cons] at hf hg
      obtain ⟨m, rfl⟩ : ∃ m, g = m + 1 := ⟨g - 1, by omega⟩
      simp only [readRunes]
      split
      · rw [ih m t (by omega) (by omega)]
      · rw [ih m _ (by omega) (by omega)]

/-- More fuel than bytes does not change the runes read. -/
theorem readRunes_fuel (fuel : Nat) (s : List Nat) (h : s.length ≤ fuel) :
    readRunes fuel s = runesOf s :=
  readRunes_stable fuel s.length s h le_rfl

theorem positionLoop_pos (pos : Int) (l : List Arg) (i c : Int) (hi : 0 < i) :
    0 < positionLoop pos l i c ↔ (∃ w ∈ l, cursorIn pos w) ∨ 0 < c := by
  induction l generalizing i c with
  | nil => simp [positionLoop]
  | cons a rest ih =>
    rw [positionLoop, ih (i + 1) _ (by omega)]
    by_cases ha : a.Offset + a.Length ≥ pos ∧ a.Offset < pos
    · rw [if_pos ha]
      constructor
      · intro _
        exact Or.inl ⟨a, List.mem_cons_self _ _, ha⟩
      · intro _
        exact Or.inr hi
    · rw [if_neg ha]
      constructor
      · rintro (⟨w, hw, hc⟩ | hc)
        · exact Or.inl ⟨w, List.mem_cons_of_mem _ hw, hc⟩
        · exact Or.inr hc
      · rintro (⟨w, hw, hc⟩ | hc)
        · rcases List.mem_cons.1 hw with rfl | hw
          · exact absurd hc ha
          · exact Or.inl ⟨w, hw, hc⟩
        · exact Or.inr hc

/-- The result of `position` is positive exactly when the cursor test holds
for an Arg other than the first. -/
theorem position_pos (pos : Int) (args : List Arg) :
    0 < position args pos ↔ ∃ w ∈ args.tail, cursorIn pos w := by
  cases args with
  | nil => simp [position, positionLoop]
  | cons a rest =>
    rw [position, positionLoop, positionLoop_pos pos rest _ _ (by omega)]
    simp only [List.tail_cons]
    constructor
    · rintro (h | h)
      · exact h
      · split at h <;> omega
    · intro h
      exact Or.inl h

/-- C13: for every line and every position inside it on which tokenizing
`line[0:pos]` succeeds, parseArgs returns the values of the words and
`inword = true` exactly when some word `w` of `Tokenize(line[0:pos])` has
`w.Offset < pos <= w.Offset + w.Length`; the word at index 0 never has the
cursor in it, so the test `current > 0` drops no such word. -/
theorem parseArgs_inword_iff (line : List Nat) (pos : Int) (h0 : 0 ≤ pos)
    (h1 : pos ≤ line.length) (aargs : List Arg)
    (ht : Tokenize (runesOf (line.take pos.toNat)) = some (aargs, none)) :
    ∃ inword, parseArgs line pos = some (.ret (aargs.map Arg.Val) inword none) ∧
      (inword = true ↔ ∃ w ∈ aargs, w.Offset < pos ∧ pos ≤ w.Offset + w.Length) ∧
      ∀ w, aargs.head? = some w → ¬ (w.Offset < pos ∧ pos ≤ w.Offset + w.Length) := by
  have hrange : ¬ (pos < 0 ∨ pos > line.length) := by omega
  have hhead : ∀ w, aargs.head? = some w → ¬ (w.Offset < pos ∧ pos ≤ w.Offset + w.Length) := by
    rintro w hw ⟨-, hle⟩
    have hlt := Tokenize_first_arg _ aargs none ht w hw
    have hr := runesOf_length (line.take pos.toNat)
    have ht' : (line.take pos.toNat).length ≤ pos.toNat := by simp
    omega
  refine ⟨decide (position aargs pos > 0), ?_, ?_, hhead⟩
  · simp only [parseArgs, if_neg hrange, ht]
  · rw [decide_eq_true_iff, gt_iff_lt, position_pos]
    constructor
    · rintro ⟨w, hw, h2, h3⟩
      exact ⟨w, List.mem_of_mem_tail hw, h3, h2⟩
    · rintro ⟨w, hw, h2, h3⟩
      cases aargs with
      | nil => cases hw
      | cons a rest =>
        rcases List.mem_cons.1 hw with rfl | hw
        · exact absurd ⟨h2, h3⟩ (hhead _ rfl)
        · exact ⟨w, hw, h3, h2⟩

theorem parseArgs_inword_iff_witness :
    ∃ inword, parseArgs (bytesOf "tester tototata") 11
        = some (.ret ["tester".toList, "toto".toList] inword none) ∧
      (inword = true ↔ ∃ w ∈ [NewArg "tester".toList 0 6, NewArg "toto".toList 7 4],
        w.Offset < 11 ∧ 11 ≤ w.Offset + w.Length) ∧
      ∀ w, [NewArg "tester".toList 0 6, NewArg "toto".toList 7 4].head? = some w →
        ¬ (w.Offset < 11 ∧ 11 ≤ w.Offset + w.Length) :=
  parseArgs_inword_iff (bytesOf "tester tototata") 11 (by decide) (by decide)
    [NewArg "tester".toList 0 6, NewArg "toto".toList 7 4] (by decide)
/-! ## The flag parse returns, with no more arguments than it was given -/

theorem parseFound_args (f f' : FlagSet) (name : List Char) (flag : Flag)
    (value : Option (List Char)) (b : Bool) (e : Option FlagError)
    (h : parseFound f name flag value = (f', b, e)) :
    f'.args.length ≤ f.args.length := by
  unfold parseFound at h
  repeat' split at h
  all_goals
    simp only [Prod.mk.injEq] at h
    obtain ⟨rfl, -, -⟩ := h
    simp_all

theorem parseOne_args (f f' : FlagSet) (b : Bool) (e : Option FlagError)
    (h : parseOne f = (f', b, e)) :
    f'.args.length ≤ f.args.length ∧ (b = true → f'.args.length < f.args.length) := by
  unfold parseOne at h
  split at h
  · cases h; simp
  rename_i s rest hargs
  split at h
  · cases h; simp
  · cases h; simp
  split at h
  · cases h; simp
  split at h
  · cases h; simp [hargs]
  split at h
  · cases h; simp
  split at h
  · cases h; simp
  simp only at h
  split at h
  · split at h <;> cases h <;> simp [hargs]
  · have := parseFound_args _ _ _ _ _ _ _ h
    simp only at this
    rw [hargs]
    simp only [List.length_cons]
    constructor
    · omega
    · intro _; omega

theorem ParseLoop_total (fuel : Nat) (f : FlagSet) (h : f.args.length < fuel) :
    ∃ f' e, ParseLoop fuel f = some (f', e) ∧ f'.args.length ≤ f.args.length := by
  induction fuel generalizing f with
  | zero => omega
  | succ n ih =>
    rw [ParseLoop]
    rcases hp : parseOne f with ⟨f1, b, e⟩
    obtain ⟨hle, hlt⟩ := parseOne_args f f1 b e hp
    cases b with
    | true =>
      obtain ⟨f', e', h1, h2⟩ := ih f1 (by have := hlt rfl; omega)
      exact ⟨f', e', h1, by omega⟩
    | false =>
      cases e with
      | none => exact ⟨f1, none, rfl, hle⟩
      | some e => exact ⟨f1, some e, rfl, hle⟩

/-- Parse returns, and leaves at most as many arguments as it was given. -/
theorem Parse_total (fs : FlagSet) (arguments : List (List Char)) :
    ∃ f' e, fs.Parse arguments = some (f', e) ∧ f'.args.length ≤ arguments.length :=
  ParseLoop_total _ _ (by simp)
/-! ## findCase -/

theorem getD_last (args : List (List Char)) (w : List Char) (h : args.getLast? = some w) :
    args.getD (args.length - 1) [] = w := by
  rw [List.getLast?_eq_getElem?] at h
  rw [List.getD_eq_getElem?_getD, h]
  rfl

/-- The verdict of findCase once the flag parse of `args[1:]` is known to
succeed leaving `R` words: the switch on `R`, `inword` and the dash prefix of
the last word. -/
theorem findCase_of_parse (fs fs' : FlagSet) (args : List (List Char)) (inword : Bool)
    (last : List Char) (R : Nat) (hlast : args.getLast? = some last)
    (hp : fs.Parse (args.drop 1) = some (fs', none)) (hR : fs'.args.length = R) :
    findCase fs args inword = some
      (if R = 0 then
        (if inword then (if hasDashPrefix last then .CompFlagKey else .CompFlagVal)
          else .CompArgs)
      else if R = 1 then (if hasDashPrefix last then .CompFlagKey else .CompArgs)
      else .CompArgs) := by
  have hne : args.length ≠ 0 := by
    intro h
    rw [List.length_eq_zero.mp h] at hlast
    cases hlast
  simp only [findCase, if_neg hne, hp, getD_last args last hlast, hR]
  by_cases h0 : R = 0
  · simp only [if_pos h0]
    cases inword <;> cases hasDashPrefix last <;> simp
  · simp only [if_neg h0]
    by_cases h1 : R = 1
    · simp only [if_pos h1]
      cases hasDashPrefix last <;> simp
    · have : R > 0 := by omega
      simp only [if_neg h1, if_pos this]

/-- C16: for a non-empty word list on which the flag parse of `args[1:]`
succeeds leaving `R` words, findCase is, when `R = 0`, CompFlagKey if in a
word and the last word begins with `-`, CompFlagVal if in a word and it does
not, CompArgs if not in a word; when `R = 1`, CompFlagKey if the last word
begins with `-` and CompArgs otherwise; when `R > 1`, CompArgs. -/
theorem findCase_parsed (fs fs' : FlagSet) (args : List (List Char)) (inword : Bool)
    (last : List Char) (R : Nat) (hlast : args.getLast? = some last)
    (hp : fs.Parse (args.drop 1) = some (fs', none)) (hR : fs'.args.length = R) :
    findCase fs args inword = some
      (if R = 0 then
        (if inword then (if hasDashPrefix last then .CompFlagKey else .CompFlagVal)
          else .CompArgs)
      else if R = 1 then (if hasDashPrefix last then .CompFlagKey else .CompArgs)
      else .CompArgs) := by
  have hne : args.length ≠ 0 := by
    intro h
    rw [List.length_eq_zero.mp h] at hlast
    cases hlast
  simp only [findCase, if_neg hne, hp, getD_last args last hlast, hR]
  by_cases h0 : R = 0
  · simp only [if_pos h0]
    cases inword <;> cases hasDashPrefix last <;> simp
  · simp only [if_neg h0]
    by_cases h1 : R = 1
    · simp only [if_pos h1]
      cases hasDashPrefix last <;> simp
    · have : R > 0 := by omega
      simp only [if_neg h1, if_pos this]

theorem findCase_parsed_witness :
    findCase testFlagSet ["cmd".toList, "-yes".toList, "toto".toList] true
      = some .CompArgs :=
  findCase_parsed testFlagSet
    { formal := testFlagSet.formal, actual := ["yes".toList], args := ["toto".toList] }
    ["cmd".toList, "-yes".toList, "toto".toList] true "toto".toList 1 rfl rfl rfl

/-- C17: findCase returns, and it returns CompErr exactly when the word
list is not empty, its last word does not begin with `-`, and the flag parse
of `args[1:]` reports an error; otherwise it returns one of CompFlagKey,
CompFlagVal, CompArgs. -/
theorem findCase_CompErr_iff (fs : FlagSet) (args : List (List Char)) (inword : Bool) :
    ∃ c, findCase fs args inword = some c ∧
      (c = .CompErr ↔ ∃ last, args.getLast? = some last ∧ hasDashPrefix last = false ∧
        ∃ fs' e, fs.Parse (args.drop 1) = some (fs', some e)) ∧
      (c = .CompErr ∨ c = .CompFlagKey ∨ c = .CompFlagVal ∨ c = .CompArgs) := by
  have hall : ∀ c : CompCase,
      c = .CompErr ∨ c = .CompFlagKey ∨ c = .CompFlagVal ∨ c = .CompArgs := by
    intro c; cases c <;> simp
  cases hargs : args.getLast? with
  | none =>
    have : args = [] := List.getLast?_eq_none_iff.mp hargs
    subst this
    exact ⟨.CompArgs, by simp [findCase], by simp, hall _⟩
  | some last =>
    have hne : args.length ≠ 0 := by
      intro h
      rw [List.length_eq_zero.mp h] at hargs
      cases hargs
    obtain ⟨fs', e, hp, -⟩ := Parse_total fs (args.drop 1)
    cases e with
    | some e =>
      cases hd : hasDashPrefix last with
      | true =>
        refine ⟨if inword then .CompFlagKey else .CompFlagVal, ?_, ?_, hall _⟩
        · simp only [findCase, if_neg hne, hp, getD_last args last hargs, hd]
          cases inword <;> simp
        · constructor
          · intro h; cases inword <;> simp at h
          · rintro ⟨l, hl, hl2, -⟩
            cases hl
            rw [hd] at hl2
            cases hl2
      | false =>
        refine ⟨.CompErr, ?_, ?_, hall _⟩
        · simp only [findCase, if_neg hne, hp, getD_last args last hargs, hd]
          simp
        · exact ⟨fun _ => ⟨last, rfl, hd, fs', e, hp⟩, fun _ => rfl⟩
    | none =>
      obtain ⟨c, hc⟩ : ∃ c, c = (if fs'.args.length = 0 then
            (if inword then (if hasDashPrefix last then CompCase.CompFlagKey
              else CompCase.CompFlagVal) else CompCase.CompArgs)
          else if fs'.args.length = 1 then
            (if hasDashPrefix last then CompCase.CompFlagKey else CompCase.CompArgs)
          else CompCase.CompArgs) := ⟨_, rfl⟩
      refine ⟨c, ?_, ?_, hall _⟩
      · rw [hc]
        exact findCase_of_parse fs fs' args inword last _ hargs hp rfl
      · constructor
        · intro h
          rw [h] at hc
          exfalso
          revert hc
          split_ifs <;> simp
        · rintro ⟨l, -, -, f2, e2, hp2⟩
          rw [hp] at hp2
          cases hp2

/-- C18: for every flag set, every command word and every word `w` that
begins with `-`, findCase on `[cmd, w]` in a word returns CompFlagKey. -/
theorem findCase_dash_word (fs : FlagSet) (cmd w : List Char)
    (hw : hasDashPrefix w = true) : findCase fs [cmd, w] true = some .CompFlagKey := by
  obtain ⟨fs', e, hp, hlen⟩ := Parse_total fs [w]
  cases e with
  | some e =>
    simp [findCase, hp, hw]
  | none =>
    have h := findCase_of_parse fs fs' [cmd, w] true w _ rfl hp rfl
    rw [h, hw]
    simp only [List.length_singleton] at hlen
    by_cases h0 : fs'.args.length = 0
    · simp [h0]
    · have h1 : fs'.args.length = 1 := by omega
      simp [h1]

theorem findCase_dash_word_witness :
    findCase testFlagSet ["cmd".toList, "--".toList] true = some .CompFlagKey :=
  findCase_dash_word testFlagSet "cmd".toList "--".toList (by decide)
/-! ## findCase after a declared flag -/

theorem cutEq_none (s : List Char) (h : '=' ∉ s) : cutEq s = none := by
  induction s with
  | nil => rfl
  | cons c cs ih =>
    have hc : c ≠ '=' := fun hc => h (by simp [hc])
    have hcs : '=' ∉ cs := fun hm => h (List.mem_cons_of_mem _ hm)
    simp [cutEq, hc, ih hcs]

/-- The call of `parseOne` on a first argument `-name` whose name is not
empty, does not begin with `-` and has no `=`, and is declared. -/
theorem parseOne_declared (f : FlagSet) (n : List Char) (rest : List (List Char)) (fl : Flag)
    (hargs : f.args = ('-' :: n) :: rest) (hn : n ≠ []) (hn1 : n.head? ≠ some '-')
    (hn2 : '=' ∉ n) (hdecl : f.lookup n = some fl) :
    parseOne f = parseFound { f with args := rest } n fl none := by
  cases n with
  | nil => exact absurd rfl hn
  | cons n0 ns =>
    have h0 : n0 ≠ '-' := fun h => hn1 (by simp [h])
    have h1 : n0 ≠ '=' := fun h => hn2 (by simp [h])
    have h2 : cutEq ns = none := cutEq_none ns fun hm => hn2 (List.mem_cons_of_mem _ hm)
    have hl : FlagSet.lookup { formal := f.formal, actual := f.actual, args := rest } (n0 :: ns)
        = some fl := hdecl
    simp only [parseOne, hargs, h0, h1, h2, hl, ne_eq, not_true_eq_false, false_and, or_self,
      if_false, Option.map_none']

theorem parseOne_nil (f : FlagSet) (h : f.args = []) : parseOne f = (f, false, none) := by
  simp [parseOne, h]

/-- C19, as amended: for every flag set that declares a string-valued flag
named `n` (not boolean, its `Set` accepts every value), where `n` is not
empty, does not begin with `-` and has no `=`, every command word and every
non-empty word `v` being typed, findCase on `[cmd, -n, v]` in a word returns
CompFlagVal when `v` does not begin with `-` and CompFlagKey when it does. -/
theorem findCase_flag_value (fs : FlagSet) (n cmd v : List Char) (fl : Flag)
    (hdecl : fs.lookup n = some fl) (hb : fl.IsBoolFlag = false)
    (hset : ∀ s, fl.Set s = true) (hn : n ≠ []) (hn1 : n.head? ≠ some '-')
    (hn2 : '=' ∉ n) (_hv : v ≠ []) :
    (hasDashPrefix v = false → findCase fs [cmd, '-' :: n, v] true = some .CompFlagVal) ∧
      (hasDashPrefix v = true → findCase fs [cmd, '-' :: n, v] true = some .CompFlagKey) := by
  have hp : fs.Parse [('-' :: n), v]
      = some ({ formal := fs.formal, actual := n :: fs.actual, args := [] }, none) := by
    have h1 := parseOne_declared { fs with args := [('-' :: n), v] } n [v] fl rfl
      hn hn1 hn2 hdecl
    simp only [FlagSet.Parse, List.length_cons, List.length_nil, ParseLoop, h1, parseFound,
      hb, hset v]
    simp [parseOne_nil]
  have h := findCase_of_parse fs _ [cmd, '-' :: n, v] true v 0 rfl hp rfl
  constructor
  · intro hv1
    rw [h, hv1]
    simp
  · intro hv1
    rw [h, hv1]
    simp

theorem findCase_flag_value_witness :
    findCase testFlagSet ["cmd".toList, "-name".toList, "toto".toList] true
        = some .CompFlagVal ∧
      findCase testFlagSet ["cmd".toList, "-name".toList, "-to".toList] true
        = some .CompFlagKey :=
  ⟨(findCase_flag_value testFlagSet "name".toList "cmd".toList "toto".toList
      (stringFlag "name".toList) rfl rfl (fun _ => rfl) (by decide) (by decide) (by decide)
      (by decide)).1 (by decide),
    (findCase_flag_value testFlagSet "name".toList "cmd".toList "-to".toList
      (stringFlag "name".toList) rfl rfl (fun _ => rfl) (by decide) (by decide) (by decide)
      (by decide)).2 (by decide)⟩

/-- C19 as stated fails, in four ways. With the string flag `name` declared,
the value `-x` begins with `-` and findCase on `[cmd, -name, -x]` in a word
returns CompFlagKey.  A string flag with the empty name: `-` followed by the
name is the lone `-`, the parse stops there and findCase on `[cmd, -, toto]`
returns CompArgs.  A string flag named `-x`: `--x` is read as the flag `x`,
which is not declared, and findCase on `[cmd, --x, toto]` returns CompErr.  A
string flag named `a=b`: `-a=b` is read as the flag `a` with the value `b`,
`a` is not declared, and findCase on `[cmd, -a=b, toto]` returns CompErr. -/
theorem findCase_flag_value_fails :
    ((testFlagSet.lookup "name".toList).map Flag.IsBoolFlag = some false ∧
      findCase testFlagSet ["cmd".toList, "-name".toList, "-x".toList] true
        = some .CompFlagKey) ∧
    (((FlagSet.mk [stringFlag []] [] []).lookup []).map Flag.IsBoolFlag = some false ∧
      findCase (FlagSet.mk [stringFlag []] [] []) ["cmd".toList, '-' :: [], "toto".toList] true
        = some .CompArgs) ∧
    (((FlagSet.mk [stringFlag "-x".toList] [] []).lookup "-x".toList).map Flag.IsBoolFlag
        = some false ∧
      findCase (FlagSet.mk [stringFlag "-x".toList] [] [])
        ["cmd".toList, '-' :: "-x".toList, "toto".toList] true = some .CompErr) ∧
    (((FlagSet.mk [stringFlag "a=b".toList] [] []).lookup "a=b".toList).map Flag.IsBoolFlag
        = some false ∧
      findCase (FlagSet.mk [stringFlag "a=b".toList] [] [])
        ["cmd".toList, '-' :: "a=b".toList, "toto".toList] true = some .CompErr) := by
  decide

/-- C20, as amended: for every flag set, every declared flag name `f` that
is not empty, does not begin with `-` and has no `=`, and every command word,
findCase on `[cmd, -f]` not in a word returns CompFlagVal when the flag takes
a value (is not boolean) and CompArgs when it is boolean and its `Set` accepts
`true`, as the flags declared with `Bool` do. -/
theorem findCase_after_flag (fs : FlagSet) (f cmd : List Char) (fl : Flag)
    (hdecl : fs.lookup f = some fl) (hf : f ≠ []) (hf1 : f.head? ≠ some '-')
    (hf2 : '=' ∉ f) :
    (fl.IsBoolFlag = false → findCase fs [cmd, '-' :: f] false = some .CompFlagVal) ∧
      (fl.IsBoolFlag = true → fl.Set "true".toList = true →
        findCase fs [cmd, '-' :: f] false = some .CompArgs) := by
  have h1 := parseOne_declared { fs with args := [('-' :: f)] } f [] fl rfl hf hf1 hf2 hdecl
  constructor
  · intro hb
    have hp : fs.Parse [('-' :: f)]
        = some ({ formal := fs.formal, actual := fs.actual, args := [] },
            some .needsArgument) := by
      simp only [FlagSet.Parse, List.length_cons, List.length_nil, ParseLoop, h1, parseFound, hb]
      simp
    simp [findCase, hp, hasDashPrefix]
  · intro hb hset
    have hp : fs.Parse [('-' :: f)]
        = some ({ formal := fs.formal, actual := f :: fs.actual, args := [] }, none) := by
      simp only [FlagSet.Parse, List.length_cons, List.length_nil, ParseLoop, h1, parseFound,
        hb, hset]
      simp [parseOne_nil]
    have h := findCase_of_parse fs _ [cmd, '-' :: f] false ('-' :: f) 0 rfl hp rfl
    rw [h]
    simp

theorem findCase_after_flag_witness :
    findCase testFlagSet ["cmd".toList, "-name".toList] false = some .CompFlagVal ∧
      findCase testFlagSet ["cmd".toList, "-yes".toList] false = some .CompArgs :=
  ⟨(findCase_after_flag testFlagSet "name".toList "cmd".toList (stringFlag "name".toList) rfl
      (by decide) (by decide) (by decide)).1 rfl,
    (findCase_after_flag testFlagSet "yes".toList "cmd".toList (boolFlag "yes".toList) rfl
      (by decide) (by decide) (by decide)).2 rfl (by decide)⟩

/-- C20 as stated fails, on `[cmd, -f]` not in a word, and each condition of
the amended claim is needed for each of the two verdicts.  The empty name:
`-` followed by the name is the lone `-`, which the parse leaves as an
argument, and findCase returns CompFlagKey for a boolean flag (not CompArgs)
and for a string flag (not CompFlagVal).  A name that begins with `-`: for
the string flag `-`, `--` ends the flags and findCase returns CompArgs (not
CompFlagVal); for the boolean flag `-x`, `--x` is read as the undeclared flag
`x` and findCase returns CompFlagVal (not CompArgs).  A name with `=`: for
the string flag `a=true` declared next to a boolean flag `a`, `-a=true` sets
`a` and findCase returns CompArgs (not CompFlagVal); for the boolean flag
`a=b`, `-a=b` is read as the undeclared flag `a` and findCase returns
CompFlagVal (not CompArgs).  A boolean flag `b` whose `Set` rejects `true`:
the parse reports an error and findCase returns CompFlagVal (not CompArgs). -/
theorem findCase_after_flag_fails :
    (((FlagSet.mk [boolFlag []] [] []).lookup []).map Flag.IsBoolFlag = some true ∧
      findCase (FlagSet.mk [boolFlag []] [] []) ["cmd".toList, '-' :: []] false
        = some .CompFlagKey ∧
      ((FlagSet.mk [stringFlag []] [] []).lookup []).map Flag.IsBoolFlag = some false ∧
      findCase (FlagSet.mk [stringFlag []] [] []) ["cmd".toList, '-' :: []] false
        = some .CompFlagKey) ∧
    (((FlagSet.mk [stringFlag "-".toList] [] []).lookup "-".toList).map Flag.IsBoolFlag
        = some false ∧
      findCase (FlagSet.mk [stringFlag "-".toList] [] []) ["cmd".toList, '-' :: "-".toList]
        false = some .CompArgs ∧
      ((FlagSet.mk [boolFlag "-x".toList] [] []).lookup "-x".toList).map Flag.IsBoolFlag
        = some true ∧
      findCase (FlagSet.mk [boolFlag "-x".toList] [] []) ["cmd".toList, '-' :: "-x".toList]
        false = some .CompFlagVal) ∧
    (((FlagSet.mk [stringFlag "a=true".toList, boolFlag "a".toList] [] []).lookup
        "a=true".toList).map Flag.IsBoolFlag = some false ∧
      findCase (FlagSet.mk [stringFlag "a=true".toList, boolFlag "a".toList] [] [])
        ["cmd".toList, '-' :: "a=true".toList] false = some .CompArgs ∧
      ((FlagSet.mk [boolFlag "a=b".toList] [] []).lookup "a=b".toList).map Flag.IsBoolFlag
        = some true ∧
      findCase (FlagSet.mk [boolFlag "a=b".toList] [] []) ["cmd".toList, '-' :: "a=b".toList]
        false = some .CompFlagVal) ∧
    (((FlagSet.mk [Flag.mk "b".toList true fun _ => false] [] []).lookup "b".toList).map
        Flag.IsBoolFlag = some true ∧
      findCase (FlagSet.mk [Flag.mk "b".toList true fun _ => false] [] [])
        ["cmd".toList, '-' :: "b".toList] false = some .CompFlagVal) := by
  decide

/-! ## findCase after an undeclared flag, and after a boolean flag -/

/-- The call of `parseOne` on a first argument `-name` whose name is not
empty, does not begin with `-` and has no `=`, and is not declared: an error
(`ErrHelp` for the names `help` and `h`). -/
theorem parseOne_undeclared (f : FlagSet) (n : List Char) (rest : List (List Char))
    (hargs : f.args = ('-' :: n) :: rest) (hn : n ≠ []) (hn1 : n.head? ≠ some '-')
    (hn2 : '=' ∉ n) (hdecl : f.lookup n = none) :
    ∃ e, parseOne f = ({ f with args := rest }, false, some e) := by
  cases n with
  | nil => exact absurd rfl hn
  | cons n0 ns =>
    have h0 : n0 ≠ '-' := fun h => hn1 (by simp [h])
    have h1 : n0 ≠ '=' := fun h => hn2 (by simp [h])
    have h2 : cutEq ns = none := cutEq_none ns fun hm => hn2 (List.mem_cons_of_mem _ hm)
    have hl : FlagSet.lookup { formal := f.formal, actual := f.actual, args := rest } (n0 :: ns)
        = none := hdecl
    by_cases hh : n0 :: ns = "help".toList ∨ n0 :: ns = "h".toList
    · refine ⟨.help, ?_⟩
      simp only [parseOne, hargs, h0, h1, h2, hl, ne_eq, not_true_eq_false, false_and, or_self,
        if_false, Option.map_none', if_pos hh]
    · refine ⟨.notDefined, ?_⟩
      simp only [parseOne, hargs, h0, h1, h2, hl, ne_eq, not_true_eq_false, false_and, or_self,
        if_false, Option.map_none', if_neg hh]

/-- A first argument that does not begin with `-` stops the parse. -/
theorem parseOne_nonflag (f : FlagSet) (s : List Char) (rest : List (List Char))
    (hargs : f.args = s :: rest) (hs : hasDashPrefix s = false) :
    parseOne f = (f, false, none) := by
  rcases s with _ | ⟨c0, _ | ⟨c1, s2⟩⟩
  · simp [parseOne, hargs]
  · simp [parseOne, hargs]
  · have h0 : c0 ≠ '-' := fun h => by simp [hasDashPrefix, h] at hs
    simp [parseOne, hargs, h0]

theorem getLast?_cons_cons_append (a b : List Char) (rest : List (List Char))
    (last : List Char) (h : rest.getLast? = some last) :
    (a :: b :: rest).getLast? = some last := by
  cases rest with
  | nil => cases h
  | cons r rs => simpa [List.getLast?_cons_cons] using h

/-- C21: an undeclared flag followed by further words is an error. For every
flag set, every non-empty name `u` that does not begin with `-`, has no `=`
and is not declared, every command word and every non-empty list `rest` whose
last word does not begin with `-`, findCase on `[cmd, -u] ++ rest` returns
CompErr, in a word or not. -/
theorem findCase_undeclared (fs : FlagSet) (u cmd : List Char) (rest : List (List Char))
    (last : List Char) (inword : Bool) (hu : u ≠ []) (hu1 : u.head? ≠ some '-')
    (hu2 : '=' ∉ u) (hdecl : fs.lookup u = none) (hlast : rest.getLast? = some last)
    (hdash : hasDashPrefix last = false) :
    findCase fs ([cmd, '-' :: u] ++ rest) inword = some .CompErr := by
  obtain ⟨e, he⟩ := parseOne_undeclared { fs with args := ('-' :: u) :: rest } u rest rfl
    hu hu1 hu2 hdecl
  have hp : fs.Parse (('-' :: u) :: rest)
      = some ({ formal := fs.formal, actual := fs.actual, args := rest }, some e) := by
    simp only [FlagSet.Parse, List.length_cons, ParseLoop, he]
  have hl := getLast?_cons_cons_append cmd ('-' :: u) rest last hlast
  have hne : (cmd :: ('-' :: u) :: rest).length ≠ 0 := by simp
  simp only [List.cons_append, List.nil_append, findCase, if_neg hne, List.drop_succ_cons,
    List.drop_zero, hp, getD_last _ last hl, hdash]
  simp

theorem findCase_undeclared_witness :
    findCase testFlagSet ["cmd".toList, "-no".toList, "toto".toList, "tata".toList] true
      = some .CompErr :=
  findCase_undeclared testFlagSet "no".toList "cmd".toList ["toto".toList, "tata".toList]
    "tata".toList true (by decide) (by decide) (by decide) rfl rfl rfl
/-- C22, as amended: positional arguments after a boolean flag. For every
flag set that declares a boolean flag `b` whose name does not begin with `-`
and has no `=` and whose `Set` accepts `true`, as the flags declared with
`Bool` do, every command word and every non-empty list of words `w0 :: ws`
whose first word does not begin with `-`, findCase on `[cmd, -b] ++ w0 :: ws`
returns CompArgs, in a word or not, for one word and for several words
whatever the later words are. -/
theorem findCase_after_bool_flag (fs : FlagSet) (b cmd w0 : List Char) (fl : Flag)
    (ws : List (List Char)) (inword : Bool) (hdecl : fs.lookup b = some fl)
    (hbool : fl.IsBoolFlag = true) (hset : fl.Set "true".toList = true)
    (hb1 : b.head? ≠ some '-') (hb2 : '=' ∉ b) (hw0 : hasDashPrefix w0 = false) :
    findCase fs ([cmd, '-' :: b] ++ w0 :: ws) inword = some .CompArgs := by
  obtain ⟨last, hlast⟩ : ∃ last, (cmd :: ('-' :: b) :: w0 :: ws).getLast? = some last := by
    cases h : (cmd :: ('-' :: b) :: w0 :: ws).getLast? with
    | none => simp at h
    | some l => exact ⟨l, rfl⟩
  by_cases hb : b = []
  · subst hb
    have hp : fs.Parse (['-'] :: w0 :: ws)
        = some ({ formal := fs.formal, actual := fs.actual, args := ['-'] :: w0 :: ws },
            none) := by
      simp [FlagSet.Parse, ParseLoop, parseOne]
    have h := findCase_of_parse fs _ ([cmd, ['-']] ++ w0 :: ws) inword last _ hlast hp rfl
    rw [h]
    simp
  · have h1 := parseOne_declared { fs with args := ('-' :: b) :: w0 :: ws } b (w0 :: ws)
      fl rfl hb hb1 hb2 hdecl
    have h2 := parseOne_nonflag
      { formal := fs.formal, actual := b :: fs.actual, args := w0 :: ws } w0 ws rfl hw0
    have hp : fs.Parse (('-' :: b) :: w0 :: ws)
        = some ({ formal := fs.formal, actual := b :: fs.actual, args := w0 :: ws },
            none) := by
      simp only [FlagSet.Parse, List.length_cons, ParseLoop, h1, parseFound, hbool, hset]
      simp [h2]
    have h := findCase_of_parse fs _ ([cmd, '-' :: b] ++ w0 :: ws) inword last _ hlast hp rfl
    rw [h]
    cases ws with
    | nil =>
      have : last = w0 := by simpa using hlast.symm
      subst this
      simp [hw0]
    | cons w1 ws => simp

theorem findCase_after_bool_flag_witness :
    findCase testFlagSet ["cmd".toList, "-yes".toList, "toto".toList, "-tata".toList] true
      = some .CompArgs :=
  findCase_after_bool_flag testFlagSet "yes".toList "cmd".toList "toto".toList
    (boolFlag "yes".toList) ["-tata".toList] true rfl rfl (by decide) (by decide) (by decide)
    (by decide)

/-- C22 as stated fails, in three ways, each on `[cmd, -b, toto]`, in a word
and not.  A boolean flag named `a=b`: `-a=b` is read as the flag `a` with the
value `b`, `a` is not declared, the parse reports an error and findCase
returns CompErr.  A boolean flag named `-x`: `--x` is read as the flag `x`,
which is not declared, and findCase returns CompErr.  A boolean flag `b` whose
`Set` rejects `true`: the parse reports an error and findCase returns
CompErr. -/
theorem findCase_after_bool_flag_fails :
    (((FlagSet.mk [boolFlag "a=b".toList] [] []).lookup "a=b".toList).map Flag.IsBoolFlag
        = some true ∧
      findCase (FlagSet.mk [boolFlag "a=b".toList] [] [])
        ["cmd".toList, '-' :: "a=b".toList, "toto".toList] true = some .CompErr ∧
      findCase (FlagSet.mk [boolFlag "a=b".toList] [] [])
        ["cmd".toList, '-' :: "a=b".toList, "toto".toList] false = some .CompErr) ∧
    (((FlagSet.mk [boolFlag "-x".toList] [] []).lookup "-x".toList).map Flag.IsBoolFlag
        = some true ∧
      findCase (FlagSet.mk [boolFlag "-x".toList] [] [])
        ["cmd".toList, '-' :: "-x".toList, "toto".toList] true = some .CompErr ∧
      findCase (FlagSet.mk [boolFlag "-x".toList] [] [])
        ["cmd".toList, '-' :: "-x".toList, "toto".toList] false = some .CompErr) ∧
    (((FlagSet.mk [Flag.mk "b".toList true fun _ => false] [] []).lookup "b".toList).map
        Flag.IsBoolFlag = some true ∧
      findCase (FlagSet.mk [Flag.mk "b".toList true fun _ => false] [] [])
        ["cmd".toList, '-' :: "b".toList, "toto".toList] true = some .CompErr ∧
      findCase (FlagSet.mk [Flag.mk "b".toList true fun _ => false] [] [])
        ["cmd".toList, '-' :: "b".toList, "toto".toList] false = some .CompErr) := by
  decide

/-! ## FlagNameGen -/

theorem TrimSuffix_TrimLeftDash (p : List Char) :
    TrimSuffix p (TrimLeftDash p) = p.takeWhile fun c => c = '-' := by
  have hsuf : (TrimLeftDash p).isSuffixOf p = true := by
    rw [List.isSuffixOf_iff_suffix]
    exact List.dropWhile_suffix _
  have hsplit := List.takeWhile_append_dropWhile (fun c => decide (c = '-')) p
  have hlen : p.length - (TrimLeftDash p).length
      = (p.takeWhile fun c => decide (c = '-')).length := by
    have := congrArg List.length hsplit
    simp only [List.length_append] at this
    simp only [TrimLeftDash]
    omega
  rw [TrimSuffix, if_pos hsuf, hlen]
  have h := List.take_left (p.takeWhile fun c => decide (c = '-'))
    (p.dropWhile fun c => decide (c = '-'))
  rw [hsplit] at h
  exact h

theorem foldl_append_filter {α β : Type} (P : α → Prop) [DecidablePred P] (g : α → β)
    (l : List α) (init : List β) :
    l.foldl (fun acc f => if P f then acc ++ [g f] else acc) init
      = init ++ (l.filter fun f => decide (P f)).map g := by
  induction l generalizing init with
  | nil => simp
  | cons a l ih =>
    rw [List.foldl_cons, ih]
    by_cases h : P a
    · simp [h]
    · simp [h]

theorem nameLE_total (a b : List Char) : nameLE a b = true ∨ nameLE b a = true := by
  induction a generalizing b with
  | nil => exact Or.inl rfl
  | cons x xs ih =>
    cases b with
    | nil => exact Or.inr rfl
    | cons y ys =>
      rcases lt_trichotomy x y with h | h | h
      · exact Or.inl (by simp [nameLE, h])
      · subst h
        rcases ih ys with h2 | h2
        · exact Or.inl (by simp [nameLE, h2])
        · exact Or.inr (by simp [nameLE, h2])
      · exact Or.inr (by simp [nameLE, h])

theorem nameLE_trans (a b c : List Char) (h1 : nameLE a b = true) (h2 : nameLE b c = true) :
    nameLE a c = true := by
  induction a generalizing b c with
  | nil => rfl
  | cons x xs ih =>
    cases b with
    | nil => simp [nameLE] at h1
    | cons y ys =>
      cases c with
      | nil => simp [nameLE] at h2
      | cons z zs =>
        simp only [nameLE, Bool.or_eq_true, decide_eq_true_eq, Bool.and_eq_true] at h1 h2 ⊢
        rcases h1 with h1 | ⟨rfl, h1⟩
        · rcases h2 with h2 | ⟨rfl, h2⟩
          · exact Or.inl (lt_trans h1 h2)
          · exact Or.inl h1
        · rcases h2 with h2 | ⟨rfl, h2⟩
          · exact Or.inl h2
          · exact Or.inr ⟨rfl, ih ys zs h1 h2⟩

/-- The result of `sortFlags` holds the declared flags, sorted by name. -/
theorem sortFlags_sorted (formal : List Flag) :
    (sortFlags formal).Perm formal ∧
      (sortFlags formal).Sorted fun a b => nameLE a.Name b.Name = true := by
  haveI : IsTotal Flag (fun a b => nameLE a.Name b.Name = true) :=
    ⟨fun a b => nameLE_total a.Name b.Name⟩
  haveI : IsTrans Flag (fun a b => nameLE a.Name b.Name = true) :=
    ⟨fun a b c => nameLE_trans a.Name b.Name c.Name⟩
  exact ⟨List.perm_insertionSort _ _, List.sorted_insertionSort _ _⟩

/-- C23: for every flag set and every prefix `p`, with `d` the maximal run
of leading `-` of `p` and `name` the rest, FlagNameGen returns exactly the
list of `d' ++ f` for the declared flags `f`, in their sorted (lexicographic)
order, that were not set by a parse and start with `name`, where `d'` is `d`
when `d` is not empty and `-` otherwise; a flag that was set is never
suggested. -/
theorem FlagNameGen_spec (fs : FlagSet) (p : List Char) :
    ∃ d name, p = d ++ name ∧ (∀ c ∈ d, c = '-') ∧ name.head? ≠ some '-' ∧
      FlagNameGen fs p
        = ((sortFlags fs.formal).filter fun f =>
            decide (f.Name ∉ fs.actual) && name.isPrefixOf f.Name).map
          (fun f => (if d = [] then ['-'] else d) ++ f.Name) ∧
      ((sortFlags fs.formal).Perm fs.formal ∧
        (sortFlags fs.formal).Sorted fun a b => nameLE a.Name b.Name = true) ∧
      ∀ f ∈ fs.actual, (if d = [] then ['-'] else d) ++ f ∉ FlagNameGen fs p := by
  have heq : FlagNameGen fs p
      = ((sortFlags fs.formal).filter fun f =>
          decide (f.Name ∉ fs.actual) && (p.dropWhile fun c => c = '-').isPrefixOf f.Name).map
        (fun f => (if (p.takeWhile fun c => c = '-') = [] then ['-']
          else p.takeWhile fun c => c = '-') ++ f.Name) := by
    simp only [FlagNameGen, TrimSuffix_TrimLeftDash]
    rw [foldl_append_filter (fun f : Flag =>
      f.Name ∉ fs.actual ∧ (TrimLeftDash p).isPrefixOf f.Name = true)]
    simp only [List.nil_append, TrimLeftDash, Bool.decide_and, Bool.decide_eq_true]
  refine ⟨p.takeWhile fun c => c = '-', p.dropWhile fun c => c = '-',
    (List.takeWhile_append_dropWhile _ p).symm, ?_, ?_, heq, sortFlags_sorted _, ?_⟩
  · intro c hc
    simpa using List.mem_takeWhile_imp hc
  · intro h
    cases hd : (p.dropWhile fun c => decide (c = '-')) with
    | nil => rw [hd] at h; cases h
    | cons c cs =>
      rw [hd] at h
      have := List.head_dropWhile_not (fun c => decide (c = '-')) p (by simp [hd])
      simp only [hd, List.head_cons] at this
      simp only [List.head?_cons, Option.some.injEq] at h
      simp [h] at this
  · intro f hf hmem
    rw [heq, List.mem_map] at hmem
    obtain ⟨g, hg, hgf⟩ := hmem
    have hname : g.Name = f := List.append_cancel_left hgf
    rw [List.mem_filter] at hg
    have := hg.2
    simp only [Bool.and_eq_true, decide_eq_true_eq] at this
    exact this.1 (hname ▸ hf)
/-! ## position on the words of Tokenize -/

/-- Tokenize returns, and the spans of the Args it returns are pairwise in
source order without overlap. -/
theorem Tokenize_pairwise (text : List Char) :
    ∃ args err, Tokenize text = some (args, err) ∧
      args.Pairwise fun a b => a.Offset + a.Length ≤ b.Offset := by
  have key := run_induct (fun _ st args => spansInv st args)
    (fun res => res.1.Pairwise fun a b => a.Offset + a.Length ≤ b.Offset)
    (fun st args hJ => by
      split
      · rename_i hpos
        exact (spansInv_pull st { st.Pull.2 with InSeparator := true } args hJ
          (le_of_lt hpos) (by simp [lexstate.Pull]) (by simp [lexstate.Pull]) rfl).2.2.2.1
      · exact hJ.2.2.2.1)
    (fun r rest st args a e hJ hit => by
      obtain ⟨rfl, -⟩ := iteration_ret_args r st args a e hit
      exact hJ.2.2.2.1)
    (fun r rest st args st' a' u hJ hit => iteration_spansInv r st st' args a' u hJ hit)
    text newstate [] spansInv_newstate
  obtain ⟨⟨args, err⟩, hrun, hpw⟩ := key
  exact ⟨args, err, by rw [Tokenize_eq_run, hrun], hpw⟩

theorem positionLoop_none (pos : Int) (l : List Arg) (i c : Int)
    (h : ∀ w ∈ l, ¬ cursorIn pos w) : positionLoop pos l i c = c := by
  induction l generalizing i c with
  | nil => rfl
  | cons a rest ih =>
    have ha : ¬ (a.Offset + a.Length ≥ pos ∧ a.Offset < pos) := h a (List.mem_cons_self _ _)
    rw [positionLoop, if_neg ha]
    exact ih _ _ fun w hw => h w (List.mem_cons_of_mem _ hw)

theorem positionLoop_last (pos : Int) (l1 l2 : List Arg) (a : Arg) (i c : Int)
    (ha : cursorIn pos a) (h2 : ∀ w ∈ l2, ¬ cursorIn pos w) :
    positionLoop pos (l1 ++ a :: l2) i c = i + l1.length := by
  induction l1 generalizing i c with
  | nil =>
    have ha' : a.Offset + a.Length ≥ pos ∧ a.Offset < pos := ha
    rw [List.nil_append, positionLoop, if_pos ha', positionLoop_none pos l2 _ _ h2]
    simp
  | cons b l1 ih =>
    rw [List.cons_append, positionLoop, ih]
    simp only [List.length_cons, Nat.cast_succ]
    omega

/-- C24: for every text and every integer `pos`, `position` on the words of
Tokenize returns the index of the word with `Offset < pos <= Offset + Length`
when there is one, at most one index has such a word, and `position` returns
-1 when there is none. -/
theorem position_Tokenize (t : List Char) (pos : Int) :
    ∃ args err, Tokenize t = some (args, err) ∧
      (∀ (i : Nat) (hi : i < args.length),
        args[i].Offset < pos ∧ pos ≤ args[i].Offset + args[i].Length →
          position args pos = i) ∧
      (∀ (i j : Nat) (hi : i < args.length) (hj : j < args.length),
        args[i].Offset < pos ∧ pos ≤ args[i].Offset + args[i].Length →
        args[j].Offset < pos ∧ pos ≤ args[j].Offset + args[j].Length → i = j) ∧
      ((∀ w ∈ args, ¬ (w.Offset < pos ∧ pos ≤ w.Offset + w.Length)) →
        position args pos = -1) := by
  obtain ⟨args, err, hT, hpw⟩ := Tokenize_pairwise t
  have hlt : ∀ (i j : Nat) (hi : i < args.length) (hj : j < args.length), i < j →
      args[i].Offset < pos ∧ pos ≤ args[i].Offset + args[i].Length →
      ¬ (args[j].Offset < pos ∧ pos ≤ args[j].Offset + args[j].Length) := by
    intro i j hi hj hij h1 h2
    have := List.pairwise_iff_getElem.1 hpw i j hi hj hij
    omega
  refine ⟨args, err, hT, ?_, ?_, ?_⟩
  · intro i hi hc
    have hsplit : args = args.take i ++ args[i] :: args.drop (i + 1) := by
      rw [← List.drop_eq_getElem_cons hi, List.take_append_drop]
    have hafter : ∀ w ∈ args.drop (i + 1), ¬ cursorIn pos w := by
      intro w hw hcw
      obtain ⟨k, hk, rfl⟩ := List.getElem_of_mem hw
      rw [List.getElem_drop] at hcw
      simp only [List.length_drop] at hk
      exact hlt i (i + 1 + k) hi (by omega) (by omega) hc ⟨hcw.2, hcw.1⟩
    have := positionLoop_last pos (args.take i) (args.drop (i + 1)) args[i] 0 (-1)
      ⟨hc.2, hc.1⟩ hafter
    rw [← hsplit] at this
    rw [position, this, List.length_take]
    simp only [zero_add, Nat.cast_inj]
    omega
  · intro i j hi hj h1 h2
    rcases Nat.lt_trichotomy i j with h | h | h
    · exact absurd h2 (hlt i j hi hj h h1)
    · exact h
    · exact absurd h1 (hlt j i hj hi h h2)
  · intro hnone
    exact positionLoop_none pos args 0 (-1) fun w hw hc => hnone w hw ⟨hc.2, hc.1⟩

theorem position_Tokenize_witness :
    ∃ args err, Tokenize "ab cde f gh ".toList = some (args, err) ∧
      (∀ (i : Nat) (hi : i < args.length),
        args[i].Offset < 5 ∧ 5 ≤ args[i].Offset + args[i].Length →
          position args 5 = i) ∧
      (∀ (i j : Nat) (hi : i < args.length) (hj : j < args.length),
        args[i].Offset < 5 ∧ 5 ≤ args[i].Offset + args[i].Length →
        args[j].Offset < 5 ∧ 5 ≤ args[j].Offset + args[j].Length → i = j) ∧
      ((∀ w ∈ args, ¬ (w.Offset < 5 ∧ 5 ≤ w.Offset + w.Length)) →
        position args 5 = -1) :=
  position_Tokenize "ab cde f gh ".toList 5
/-! ## Tokenize fails on expansion syntax only -/

theorem expFree_tail (r : Char) (rest : List Char) (h : expFree (r :: rest)) :
    expFree rest := by
  obtain ⟨h1, h2, h3⟩ := h
  refine ⟨fun hm => h1 (List.mem_cons_of_mem _ hm), fun hi => h2 ?_, fun hi => h3 ?_⟩
  · exact hi.trans (List.suffix_cons r rest).isInfix
  · exact hi.trans (List.suffix_cons r rest).isInfix

theorem expFree_dollar (rest : List Char) (h : expFree ('$' :: rest)) (c : Char)
    (hc : rest.head? = some c) : c ≠ '(' ∧ c ≠ '{' := by
  obtain ⟨-, h2, h3⟩ := h
  cases rest with
  | nil => cases hc
  | cons d rest' =>
    simp only [List.head?_cons, Option.some.injEq] at hc
    subst hc
    constructor
    · rintro rfl
      exact h2 (List.prefix_append ['$', '('] rest').isInfix
    · rintro rfl
      exact h3 (List.prefix_append ['$', '{'] rest').isInfix

theorem iteration_ret_cases (r : Char) (st : lexstate) (args a : List Arg)
    (e : Option TokError) (h : iteration r st args = .ret a e) :
    (st.InDollar = true ∧ (r = '(' ∨ r = '{')) ∨ r = '`' := by
  cases h0 : st.InDollar
  swap
  · rw [iteration_InDollar r st args h0] at h
    split at h
    · rename_i hr
      exact Or.inl ⟨rfl, hr⟩
    · cases h
  cases h1 : st.InSingleQuote
  swap
  · rw [iteration_InSingleQuote r st args h0 h1] at h
    split at h <;> cases h
  cases h2 : st.InDoubleQuote
  swap
  · rw [iteration_InDoubleQuote r st args h0 h1 h2] at h
    repeat' split at h
    all_goals first
      | cases h; done
      | exact Or.inr (by assumption)
  cases h3 : st.InEscape
  swap
  · rw [iteration_InEscape r st args h0 h1 h2 h3] at h
    cases h
  cases h4 : st.InSeparator
  swap
  · rw [iteration_InSeparator r st args h0 h1 h2 h3 h4] at h
    split at h <;> cases h
  rw [iteration_default r st args h0 h1 h2 h3 h4] at h
  repeat' split at h
  all_goals first
    | cases h; done
    | exact Or.inr (by assumption)

theorem iteration_dollar_set (r : Char) (st st' : lexstate) (args args' : List Arg) (u : Bool)
    (h : iteration r st args = .next st' args' u) (hd : (st'.Move 1).InDollar = true) :
    u = false ∧ r = '$' := by
  cases h0 : st.InDollar
  swap
  · rw [iteration_InDollar r st args h0] at h
    split at h <;> cases h
    simp [lexstate.Move] at hd
  cases h1 : st.InSingleQuote
  swap
  · rw [iteration_InSingleQuote r st args h0 h1] at h
    split at h <;> cases h <;> simp [lexstate.Move, Push_InDollar, h0] at hd
  cases h2 : st.InDoubleQuote
  swap
  · rw [iteration_InDoubleQuote r st args h0 h1 h2] at h
    repeat' split at h
    all_goals cases h
    all_goals first
      | exact ⟨rfl, by assumption⟩
      | simp [lexstate.Move, Push_InDollar, h0] at hd
  cases h3 : st.InEscape
  swap
  · rw [iteration_InEscape r st args h0 h1 h2 h3] at h
    cases h
    simp [lexstate.Move, Push_InDollar, h0] at hd
  cases h4 : st.InSeparator
  swap
  · rw [iteration_InSeparator r st args h0 h1 h2 h3 h4] at h
    split at h <;> cases h <;> simp [lexstate.Move, h0] at hd
  rw [iteration_default r st args h0 h1 h2 h3 h4] at h
  repeat' split at h
  all_goals cases h
  all_goals first
    | exact ⟨rfl, by assumption⟩
    | simp [lexstate.Move, Push_InDollar, lexstate.Pull, h0] at hd

/-- C25: Tokenize fails only on unsupported expansion syntax. For every text
that contains no backtick and no occurrence of the two-character sequences
`$(` or `$\x7b`, Tokenize returns a word list with a nil error. -/
theorem Tokenize_expFree (text : List Char) (h1 : '`' ∉ text)
    (h2 : ¬ ['$', '('] <:+: text) (h3 : ¬ ['$', '{'] <:+: text) :
    ∃ args, Tokenize text = some (args, none) := by
  have key := run_induct (fun reader st _ => noExpInv reader st)
    (fun res => res.2 = none)
    (fun st args _ => by split <;> rfl)
    (fun r rest st args a e hI hit => by
      exfalso
      obtain ⟨hfree, hdol⟩ := hI
      rcases iteration_ret_cases r st args a e hit with ⟨hd, hr⟩ | hr
      · have := hdol hd r rfl
        rcases hr with hr | hr
        · exact this.1 hr
        · exact this.2 hr
      · exact hfree.1 (by simp [hr]))
    (fun r rest st args st' a' u hI hit => by
      obtain ⟨hfree, -⟩ := hI
      constructor
      · cases u
        · exact expFree_tail r rest hfree
        · exact hfree
      · intro hd c hc
        obtain ⟨rfl, rfl⟩ := iteration_dollar_set r st st' args a' u hit hd
        exact expFree_dollar rest hfree c hc)
    text newstate [] ⟨⟨h1, h2, h3⟩, fun h => by simp [newstate] at h⟩
  obtain ⟨⟨args, err⟩, hrun, hpost⟩ := key
  simp only at hpost
  subst hpost
  exact ⟨args, by rw [Tokenize_eq_run, hrun]⟩

theorem Tokenize_expFree_witness :
    ∃ args, Tokenize "ec$ho $a 'b\\ \"c\\".toList = some (args, none) :=
  Tokenize_expFree "ec$ho $a 'b\\ \"c\\".toList (by decide) (by decide) (by decide)

end Compgen
